import Mathlib

/-!
Verification of the OCR text-extraction service (`server-services-ocr.js`)
of the GeoSnap repository.

The development shallow-embeds the three functions the specification talks
about — `extractTextFromImage`, `buildCleanText` and `parseOcrText` — over
`List Char` strings.  JavaScript regular expressions are embedded by a small
backtracking matcher (`RE`, `mtch`, `scanF`) with JavaScript semantics:
leftmost match, alternation tried left first, greedy quantifiers, and
`/g`-style scanning that restarts after each match.  Confidence values are
rationals.  The concurrent fan-out of `extractTextFromImage` (promises over
an external preprocessing and recognition capability) is embedded as a pure
function of an `Oracle` describing the outcome of every external call,
threading an explicit file-system state for the temporary files.
-/

namespace GeoSnap

/-- Strings are modelled as lists of characters. -/
abbrev Str := List Char

/-- ASCII letter, as in the JavaScript character classes `a-zA-Z`. -/
def isAsciiAlpha (c : Char) : Bool :=
  ('a' ≤ c && c ≤ 'z') || ('A' ≤ c && c ≤ 'Z')

/-- ASCII digit, as in the JavaScript class `\d` / `0-9`. -/
def isDigitCh (c : Char) : Bool :=
  '0' ≤ c && c ≤ '9'

/-- JavaScript `\s` whitespace (the ASCII part, which is all the pipeline
can produce after character sanitation). -/
def isWsJs (c : Char) : Bool :=
  c = ' ' || c = '\t' || c = '\n' || c = '\r' ||
  c = '\x0b' || c = '\x0c'

/-- JavaScript `\w` word character, used by the `\b` assertion. -/
def isWordCh (c : Char) : Bool :=
  isAsciiAlpha c || isDigitCh c || c = '_'

/-- JavaScript `String.prototype.trim`: drop leading whitespace. -/
def dropLeadWs (l : Str) : Str := l.dropWhile (fun c => isWsJs c)

/-- JavaScript `String.prototype.trim` on a character list. -/
def trimStr (l : Str) : Str :=
  (dropLeadWs ((dropLeadWs l).reverse)).reverse

/-- Embedding of `.replace(/[ ]{2,}/g, " ")`: every run of two or more
spaces collapses to a single space (the run's last space is kept). -/
def collapseSp : Str → Str
  | [] => []
  | [c] => [c]
  | c1 :: c2 :: rest =>
    if c1 = ' ' && c2 = ' ' then collapseSp (c2 :: rest)
    else c1 :: collapseSp (c2 :: rest)

/-- Embedding of `.replace(/\n{3,}/g, "\n\n")`: every run of three or more
newlines collapses to two (the run's last two newlines are kept). -/
def collapseNL : Str → Str
  | c1 :: c2 :: c3 :: rest =>
    if c1 = '\n' && c2 = '\n' && c3 = '\n' then collapseNL (c2 :: c3 :: rest)
    else c1 :: collapseNL (c2 :: c3 :: rest)
  | l => l

/-- Embedding of `.replace(/\s+/g, " ")`: every maximal whitespace run
becomes one space. -/
def squashWs : Str → Str
  | [] => []
  | [c] => if isWsJs c then [' '] else [c]
  | c1 :: c2 :: rest =>
    if isWsJs c1 && isWsJs c2 then squashWs (c2 :: rest)
    else (if isWsJs c1 then ' ' else c1) :: squashWs (c2 :: rest)

/-- Split a string on newline characters, as `String.prototype.split("\n")`. -/
def splitNL (l : Str) : List Str := l.splitOn '\n'

/-- JavaScript `[...new Set(xs)]`: remove duplicates keeping the first
occurrence of each element. -/
def dedupFirst [DecidableEq α] : List α → List α → List α
  | _, [] => []
  | seen, a :: rest =>
    if a ∈ seen then dedupFirst seen rest
    else a :: dedupFirst (a :: seen) rest

/-- JavaScript `s.join(sep)` on a list of strings. -/
def joinSep (sep : Str) (l : List Str) : Str := List.intercalate sep l

/-- JavaScript `s || null` on a string result: the empty string becomes
`null` (here `none`), anything else is kept. -/
def orNull (s : Str) : Option Str := if s = [] then none else some s

theorem orNull_spec (s : Str) :
    orNull s = none ∨ ∃ t, orNull s = some t ∧ t ≠ [] := by
  by_cases h : s = []
  · left; simp [orNull, h]
  · right; exact ⟨s, by simp [orNull, h], h⟩

/-!
A small backtracking regular-expression engine with JavaScript semantics.
Unbounded repetition only ever occurs over single character classes in the
source's regexes, so the star constructor is restricted to classes, which
keeps every definition structurally recursive and kernel-computable.
-/

/-- Regular expressions: empty word, character class, sequencing,
alternation (left tried first), greedy option, greedy star over a
character class, and the `\b` word-boundary assertion. -/
inductive RE where
  | eps : RE
  | cls : (Char → Bool) → RE
  | seq : RE → RE → RE
  | alt : RE → RE → RE
  | opt : RE → RE
  | starCls : (Char → Bool) → RE
  | bnd : RE

/-- Single literal character as a regex. -/
def chrc (c : Char) : RE := RE.cls (fun d => d = c)

/-- Literal string as a regex. -/
def litRE (s : String) : RE :=
  s.data.foldr (fun c r => RE.seq (chrc c) r) RE.eps

/-- Greedy `f+` over a character class. -/
def plusCls (f : Char → Bool) : RE := RE.seq (RE.cls f) (RE.starCls f)

/-- Exactly `n` repetitions of a character class. -/
def repN (f : Char → Bool) : Nat → RE
  | 0 => RE.eps
  | n + 1 => RE.seq (RE.cls f) (repN f n)

/-- Greedy `f{0,n}` over a character class: up to `n` characters, longer
attempts first. -/
def upToN (f : Char → Bool) : Nat → RE
  | 0 => RE.eps
  | n + 1 => RE.opt (RE.seq (RE.cls f) (upToN f n))

/-- Greedy `f{m,n}` over a character class. -/
def repRange (f : Char → Bool) (m n : Nat) : RE :=
  RE.seq (repN f m) (upToN f (n - m))

/-- Greedy `f{m,}` over a character class. -/
def repAtLeast (f : Char → Bool) (m : Nat) : RE :=
  RE.seq (repN f m) (RE.starCls f)

/-- Word-boundary test at a position: `prev` is the character before the
position (`none` at the start of the haystack), `s` the remaining input. -/
def atBoundary (prev : Option Char) (s : Str) : Bool :=
  let pw := match prev with | none => false | some c => isWordCh c
  let nw := match s with | [] => false | c :: _ => isWordCh c
  pw != nw

/-- Greedy star over a class in continuation-passing style: consume as many
class characters as possible, backtracking into the continuation `k`. -/
def starMtch (f : Char → Bool) (prev : Option Char) (s : Str)
    (k : Option Char → Str → Option Str) : Option Str :=
  match s with
  | [] => k prev []
  | c :: rest =>
    if f c then (starMtch f (some c) rest k).orElse (fun _ => k prev (c :: rest))
    else k prev (c :: rest)

/-- Backtracking matcher in continuation-passing style.  `mtch r prev s k`
tries to match `r` at the start of `s` (with `prev` the character just
before `s`), calling `k` on the suffix left over; alternatives are tried in
JavaScript order (left alternative first, greedy option and star), so the
first success found is the one a JavaScript engine reports. -/
def mtch : RE → Option Char → Str → (Option Char → Str → Option Str) → Option Str
  | .eps, prev, s, k => k prev s
  | .cls f, prev, s, k =>
    match s with
    | [] => none
    | c :: rest => if f c then k (some c) rest else none
  | .seq r1 r2, prev, s, k =>
    mtch r1 prev s (fun p s' => mtch r2 p s' k)
  | .alt r1 r2, prev, s, k =>
    (mtch r1 prev s k).orElse (fun _ => mtch r2 prev s k)
  | .opt r, prev, s, k =>
    (mtch r prev s k).orElse (fun _ => k prev s)
  | .starCls f, prev, s, k => starMtch f prev s k
  | .bnd, prev, s, k => if atBoundary prev s then k prev s else none

/-- Attempt a match of `r` at the start of `s`; on success return the
matched prefix and the remaining suffix. -/
def matchAt (r : RE) (prev : Option Char) (s : Str) : Option (Str × Str) :=
  match mtch r prev s (fun _ rest => some rest) with
  | none => none
  | some rest => some (s.take (s.length - rest.length), rest)

/-- One segment of a `/g` scan: `true` marks a matched span, `false` an
unmatched character. -/
abbrev Seg := Bool × Str

/-- Fuelled `/g` scan over a haystack: at each position try a match; on a
(non-empty) match emit it and continue after it, otherwise advance one
character.  `fuel ≥ s.length` makes the fuel irrelevant. -/
def scanF : Nat → RE → Option Char → Str → List Seg
  | 0, _, _, _ => []
  | _, _, _, [] => []
  | fuel + 1, r, prev, c :: rest =>
    match matchAt r prev (c :: rest) with
    | some (m, rest') =>
      match m with
      | [] => (false, [c]) :: scanF fuel r (some c) rest
      | _ :: _ => (true, m) :: scanF fuel r m.getLast? rest'
    | none => (false, [c]) :: scanF fuel r (some c) rest

/-- Scan a whole haystack with `/g` semantics. -/
def scanRE (r : RE) (s : Str) : List Seg := scanF s.length r none s

/-- JavaScript `[...s.matchAll(r)].map(m => m[0])`. -/
def matchAll (r : RE) (s : Str) : List Str :=
  ((scanRE r s).filter (fun seg => seg.1)).map (fun seg => seg.2)

/-- JavaScript `s.replace(r, "")` for a `/g` regex. -/
def replaceAll (r : RE) (s : Str) : Str :=
  (((scanRE r s).filter (fun seg => !seg.1)).map (fun seg => seg.2)).flatten

/-- JavaScript `r.test(s)`. -/
def testRE (r : RE) (s : Str) : Bool :=
  (scanRE r s).any (fun seg => seg.1)

/-!
The concrete regular expressions of `parseOcrText`, transcribed from the
source.
-/

/-- Class `[\s\-]`. -/
def wsDash (c : Char) : Bool := isWsJs c || c = '-'

/-- Class `[\s\-.]`. -/
def wsDashDot (c : Char) : Bool := isWsJs c || c = '-' || c = '.'

/-- Class `[6-9]`. -/
def six2nine (c : Char) : Bool := '6' ≤ c && c ≤ '9'

/-- First alternative of the phone regex:
`(\+?91[\s\-]?)?[6-9]\d{9}`. -/
def phoneAltA : RE :=
  RE.seq
    (RE.opt (RE.seq (RE.opt (chrc '+'))
      (RE.seq (litRE "91") (RE.opt (RE.cls wsDash)))))
    (RE.seq (RE.cls six2nine) (repN isDigitCh 9))

/-- Second alternative of the phone regex:
`(\+?\d{1,3}[\s\-]?)?(\(?\d{2,4}\)?[\s\-.]?)(\d{3,5}[\s\-.]?\d{3,5})`. -/
def phoneAltB : RE :=
  RE.seq
    (RE.opt (RE.seq (RE.opt (chrc '+'))
      (RE.seq (repRange isDigitCh 1 3) (RE.opt (RE.cls wsDash)))))
    (RE.seq
      (RE.seq (RE.opt (chrc '('))
        (RE.seq (repRange isDigitCh 2 4)
          (RE.seq (RE.opt (chrc ')')) (RE.opt (RE.cls wsDashDot)))))
      (RE.seq (repRange isDigitCh 3 5)
        (RE.seq (RE.opt (RE.cls wsDashDot)) (repRange isDigitCh 3 5))))

/-- The source's `phoneRegex`. -/
def phoneRE : RE := RE.alt phoneAltA phoneAltB

/-- Class `[a-zA-Z0-9._%+\-]` (email local part). -/
def localCh (c : Char) : Bool :=
  isAsciiAlpha c || isDigitCh c || c = '.' || c = '_' || c = '%' || c = '+' || c = '-'

/-- Class `[a-zA-Z0-9.\-]` (email domain). -/
def domCh (c : Char) : Bool :=
  isAsciiAlpha c || isDigitCh c || c = '.' || c = '-'

/-- The source's `emailRegex`:
`[a-zA-Z0-9._%+\-]+@[a-zA-Z0-9.\-]+\.[a-zA-Z]{2,}`. -/
def emailRE : RE :=
  RE.seq (plusCls localCh)
    (RE.seq (chrc '@')
      (RE.seq (plusCls domCh)
        (RE.seq (chrc '.') (repAtLeast isAsciiAlpha 2))))

/-- Class `[^\s]`. -/
def notWs (c : Char) : Bool := !isWsJs c

/-- Class `[a-zA-Z0-9\-]` (www host label). -/
def hostCh (c : Char) : Bool := isAsciiAlpha c || isDigitCh c || c = '-'

/-- The source's `urlRegex`:
`(https?:\/\/[^\s]+)|(www\.[a-zA-Z0-9\-]+\.[a-zA-Z]{2,}[^\s]*)`. -/
def urlRE : RE :=
  RE.alt
    (RE.seq (litRE "http")
      (RE.seq (RE.opt (chrc 's')) (RE.seq (litRE "://") (plusCls notWs))))
    (RE.seq (litRE "www.")
      (RE.seq (plusCls hostCh)
        (RE.seq (chrc '.')
          (RE.seq (repAtLeast isAsciiAlpha 2) (RE.starCls notWs)))))

/-- A keyword with an optional trailing dot, e.g. `st\.?`. -/
def kwDot (s : String) : RE := RE.seq (litRE s) (RE.opt (chrc '.'))

/-- The keyword alternation of the source's `addressKeywords` regex, in
declaration order. -/
def addressKwAlt : RE :=
  [litRE "street", kwDot "st", litRE "road", kwDot "rd",
   litRE "avenue", kwDot "ave", litRE "lane", litRE "nagar",
   litRE "salai", litRE "marg", litRE "chowk", litRE "block",
   litRE "sector", litRE "plot", kwDot "no", litRE "floor",
   litRE "building", litRE "bldg", litRE "colony", litRE "layout",
   litRE "cross", litRE "main", litRE "bypass", litRE "highway",
   litRE "district", litRE "taluk", litRE "village"].foldr
    RE.alt (RE.cls (fun _ => false))

/-- The source's `addressKeywords` regex: `\b( … )\b`, case-insensitive
(matching is performed on the lowercased line). -/
def addressKwRE : RE := RE.seq RE.bnd (RE.seq addressKwAlt RE.bnd)

/-!
Embedding of `parseOcrText`.  The JavaScript function first sanitises the
raw transcript into a canonical `cleaned` string and computes every field
from it; the embedding mirrors that through `…From cleaned` functions.
-/

/-- Allowed characters of the sanitation class
`[^஀-௿a-zA-Z0-9 \n.,\-:\/()%₹$@#&!]` (the characters that are
kept). -/
def allowedCh (c : Char) : Bool :=
  ('஀' ≤ c && c ≤ '௿') || isAsciiAlpha c || isDigitCh c ||
  c = ' ' || c = '\n' || c = '.' || c = ',' || c = '-' || c = ':' ||
  c = '/' || c = '(' || c = ')' || c = '%' || c = '₹' || c = '$' ||
  c = '@' || c = '#' || c = '&' || c = '!'

/-- Embedding of `.replace(/\t/g, " ")`. -/
def tabToSp (l : Str) : Str := l.map (fun c => if c = '\t' then ' ' else c)

/-- Character sanitation of `parseOcrText`: keep allowed characters, turn
tabs into spaces, collapse space runs, cap newline runs at two, trim. -/
def sanitize (raw : Str) : Str :=
  trimStr (collapseNL (collapseSp (tabToSp (raw.filter allowedCh))))

/-- The trimmed, non-empty lines of the cleaned text. -/
def linesFrom (cleaned : Str) : List Str :=
  ((splitNL cleaned).map trimStr).filter (fun l => !l.isEmpty)

/-- The `formattedText` of `parseOcrText`: lines rejoined with newlines. -/
def formattedFrom (cleaned : Str) : Str :=
  joinSep ['\n'] (linesFrom cleaned)

/-- Accepted phone candidates: every `phoneRegex` match, trimmed and
whitespace-squashed, kept when its digit count lies in `[7, 15]`. -/
def phonesFrom (cleaned : Str) : List Str :=
  ((matchAll phoneRE cleaned).map (fun m => squashWs (trimStr m))).filter
    (fun p =>
      let d := (p.filter isDigitCh).length
      decide (7 ≤ d) && decide (d ≤ 15))

/-- Every `emailRegex` match of the cleaned text. -/
def emailsFrom (cleaned : Str) : List Str := matchAll emailRE cleaned

/-- Every `urlRegex` match of the cleaned text. -/
def urlsFrom (cleaned : Str) : List Str := matchAll urlRE cleaned

/-- A line qualifies as an address line when the keyword regex matches
(case-insensitively) and the line contains a digit. -/
def isAddressLine (l : Str) : Bool :=
  testRE addressKwRE (l.map Char.toLower) && l.any (fun c => isDigitCh c)

/-- The address lines of the cleaned text (no deduplication). -/
def addressLinesFrom (cleaned : Str) : List Str :=
  (linesFrom cleaned).filter isAddressLine

/-- Inline stripping applied to each surviving line of `otherLines`:
remove phone, email and URL matches, collapse double spaces, trim. -/
def stripLine (l : Str) : Str :=
  trimStr (collapseSp (replaceAll urlRE (replaceAll emailRE (replaceAll phoneRE l))))

/-- The lines surviving the pure-line exclusion of `otherLines`: the
lines of the cleaned text that are not exactly (after trimming) an
address line, an extracted email or an extracted URL.  These are the
lines the source's inline stripping step is then applied to. -/
def survivingLinesFrom (cleaned : Str) : List Str :=
  (linesFrom cleaned).filter (fun line =>
    !(decide (trimStr line ∈ (addressLinesFrom cleaned).map trimStr) ||
      decide (trimStr line ∈ (emailsFrom cleaned).map trimStr) ||
      decide (trimStr line ∈ (urlsFrom cleaned).map trimStr)))

/-- The `otherLines` of `parseOcrText`: drop lines that are exactly an
address line, an email or a URL (after trimming), strip the rest inline,
and drop lines reduced to length ≤ 1. -/
def otherLinesFrom (cleaned : Str) : List Str :=
  let addressSet := (addressLinesFrom cleaned).map trimStr
  let emailSet := (emailsFrom cleaned).map trimStr
  let urlSet := (urlsFrom cleaned).map trimStr
  ((((linesFrom cleaned).filter (fun line =>
      !(decide (trimStr line ∈ addressSet) ||
        decide (trimStr line ∈ emailSet) ||
        decide (trimStr line ∈ urlSet)))).map stripLine).filter
    (fun l => decide (1 < l.length)))

/-- The `otherText` string: surviving lines rejoined and trimmed. -/
def otherTextFrom (cleaned : Str) : Str :=
  trimStr (joinSep ['\n'] (otherLinesFrom cleaned))

/-- The record returned by `parseOcrText`. -/
structure ParsedFields where
  ocr_text : Option Str
  ocr_address : Option Str
  ocr_contact_number : Option Str
  ocr_email : Option Str
  ocr_url : Option Str
  other_text : Option Str
  deriving DecidableEq, Repr

/-- The all-`null` record returned for a falsy input. -/
def nullFields : ParsedFields := ⟨none, none, none, none, none, none⟩

/-- Assembly of the six fields from the canonical cleaned text, mirroring
the return statement of `parseOcrText` (`x || null` throughout, `" | "`
join for addresses, `", "` joins with `Set` deduplication for phones,
emails and URLs). -/
def fieldsFrom (cleaned : Str) : ParsedFields where
  ocr_text := orNull (formattedFrom cleaned)
  ocr_address := orNull (joinSep " | ".data (addressLinesFrom cleaned))
  ocr_contact_number := orNull (joinSep ", ".data (dedupFirst [] (phonesFrom cleaned)))
  ocr_email := orNull (joinSep ", ".data (dedupFirst [] (emailsFrom cleaned)))
  ocr_url := orNull (joinSep ", ".data (dedupFirst [] (urlsFrom cleaned)))
  other_text := orNull (otherTextFrom cleaned)

theorem fieldsFrom_ocr_text (c : Str) :
    (fieldsFrom c).ocr_text = orNull (formattedFrom c) := rfl

theorem fieldsFrom_ocr_address (c : Str) :
    (fieldsFrom c).ocr_address = orNull (joinSep " | ".data (addressLinesFrom c)) := rfl

theorem fieldsFrom_ocr_contact_number (c : Str) :
    (fieldsFrom c).ocr_contact_number =
      orNull (joinSep ", ".data (dedupFirst [] (phonesFrom c))) := rfl

theorem fieldsFrom_ocr_email (c : Str) :
    (fieldsFrom c).ocr_email = orNull (joinSep ", ".data (dedupFirst [] (emailsFrom c))) := rfl

theorem fieldsFrom_ocr_url (c : Str) :
    (fieldsFrom c).ocr_url = orNull (joinSep ", ".data (dedupFirst [] (urlsFrom c))) := rfl

theorem fieldsFrom_other_text (c : Str) :
    (fieldsFrom c).other_text = orNull (otherTextFrom c) := rfl

/-- Embedding of `parseOcrText`. -/
def parseOcrText (raw : Str) : ParsedFields :=
  if raw = [] then nullFields else fieldsFrom (sanitize raw)

/-!
Embedding of `buildCleanText` over the recognition engine's data shape
(`data.lines[].words[]` with per-word confidence, plus the flat
`data.words` used for scoring and the raw `data.text` fallback).
Confidence values are rationals.
-/

/-- One recognised word: text and confidence. -/
structure OcrWord where
  text : Str
  confidence : ℚ
  deriving DecidableEq, Repr

/-- One recognised line; `words` may be absent (`!line.words`). -/
structure OcrLine where
  words : Option (List OcrWord)
  deriving DecidableEq, Repr

/-- The recognition result consumed by `buildCleanText` and the scorer;
`lines`, `words` and `text` may each be absent. -/
structure OcrData where
  lines : Option (List OcrLine)
  words : Option (List OcrWord)
  text : Option Str
  deriving DecidableEq, Repr

/-- The per-line confidence filter of `buildCleanText`: keep words with
confidence ≥ 45 (`MIN_CONF`) and non-empty trimmed text. -/
def goodWordsOf (ws : List OcrWord) : List OcrWord :=
  ws.filter (fun w => decide (45 ≤ w.confidence) && !(trimStr w.text).isEmpty)

/-- Processing of one line of `buildCleanText`: `none` when the loop
`continue`s (no words, no surviving word, keep ratio below 0.4, or empty
joined text), otherwise the line's cleaned text. -/
def lineKept (line : OcrLine) : Option Str :=
  match line.words with
  | none => none
  | some ws =>
    if ws.isEmpty then none
    else
      let good := goodWordsOf ws
      if good.isEmpty then none
      else if (good.length : ℚ) / (ws.length : ℚ) < 2/5 then none
      else
        let lineText := trimStr (joinSep [' '] (good.map (fun w => w.text)))
        if lineText.isEmpty then none else some lineText

/-- Embedding of `buildCleanText`. -/
def buildCleanText (data : OcrData) : Str :=
  match data.lines with
  | none => data.text.getD []
  | some ls =>
    if ls.isEmpty then data.text.getD []
    else joinSep ['\n'] (ls.filterMap lineKept)

/-!
Embedding of `extractTextFromImage`.  The external capabilities (sharp
preprocessing pipelines writing temporary files, Tesseract recognition) are
an `Oracle` giving the outcome of every external call of one invocation;
the file system is an explicit set of paths.  `Promise.all` rejects as soon
as any member rejects (the other promises still run, so every successful
temporary write still creates its file), and the rejection is caught by the
single `try/catch` around the whole fan-out, which falls back to one
recognition pass on the unprocessed image.  The `finally` block deletes
every temporary path on all exit paths.
-/

/-- File-system state: the set of existing paths. -/
abbrev FS := List Str

/-- Outcomes of the external calls made by one invocation of
`extractTextFromImage`. -/
structure Oracle where
  imagePath : Option Str
  tmpPath : Fin 3 → Str
  writeOk : Fin 3 → Bool
  recog : Fin 3 → Except Unit OcrData
  fallbackRecog : Except Unit OcrData

/-- The flat result object returned by `extractTextFromImage`. -/
structure ExtractResult where
  ocr_text_raw : Option Str
  ocr_text : Option Str
  ocr_address : Option Str
  ocr_contact_number : Option Str
  ocr_email : Option Str
  ocr_url : Option Str
  other_text : Option Str
  deriving DecidableEq, Repr

/-- The `empty` result (every field null). -/
def emptyResult : ExtractResult :=
  ⟨none, none, none, none, none, none, none⟩

/-- Spread of a parsed record over a raw transcript:
`{ ocr_text_raw: raw, ...parsed }`. -/
def mkResult (raw : Str) (p : ParsedFields) : ExtractResult :=
  ⟨some raw, p.ocr_text, p.ocr_address, p.ocr_contact_number,
   p.ocr_email, p.ocr_url, p.other_text⟩

/-- The three recipe names, in declaration order. -/
def strategyName : Fin 3 → Str
  | 0 => "high-contrast".data
  | 1 => "clean-bw".data
  | 2 => "gentle".data

/-- A scored recognition result. -/
structure ScoredResult where
  data : OcrData
  score : ℚ
  name : Str
  deriving DecidableEq, Repr

instance : Inhabited ScoredResult := ⟨⟨⟨none, none, none⟩, 0, []⟩⟩

/-- Average confidence over words with confidence strictly above 50
(`r.data.words || []`), 0 when none qualify. -/
def scoreOf (data : OcrData) : ℚ :=
  let good := (data.words.getD []).filter (fun w => decide (50 < w.confidence))
  if good.isEmpty then 0
  else (good.map (fun w => w.confidence)).sum / (good.length : ℚ)

/-- Embedding of `scored.sort((a, b) => b.score - a.score)`:
`Array.prototype.sort` is a stable sort, and any stable sort agrees with
insertion sort on the preorder induced by the comparator, so insertion sort
by descending score is the extensional embedding of the source's sort. -/
def sortScored (l : List ScoredResult) : List ScoredResult :=
  List.insertionSort (fun a b => b.score ≤ a.score) l

/-- The scored list of the three strategies, in declaration order. -/
def scoredOf (d0 d1 d2 : OcrData) : List ScoredResult :=
  [⟨d0, scoreOf d0, strategyName 0⟩,
   ⟨d1, scoreOf d1, strategyName 1⟩,
   ⟨d2, scoreOf d2, strategyName 2⟩]

/-- The `try` block of `extractTextFromImage` after the temporary files
are set up: `Promise.all` over the writes, then over the recognitions
(`Except.error` is the rejection caught by the `catch`); on success, score
and sort the three results, rebuild clean text from the winner, and parse. -/
def extractTry (o : Oracle) : Except Unit ExtractResult :=
  if (o.writeOk 0 && o.writeOk 1 && o.writeOk 2) then
    match o.recog 0, o.recog 1, o.recog 2 with
    | .ok d0, .ok d1, .ok d2 =>
      let best := (sortScored (scoredOf d0 d1 d2)).headI
      let cleanRaw := buildCleanText best.data
      if cleanRaw.isEmpty || decide ((trimStr cleanRaw).length < 2) then
        .ok emptyResult
      else .ok (mkResult cleanRaw (parseOcrText cleanRaw))
    | _, _, _ => .error ()
  else .error ()

/-- The `catch` block: one recognition pass on the unprocessed image; on
failure or empty text, the empty result. -/
def extractCatch (o : Oracle) : ExtractResult :=
  match o.fallbackRecog with
  | .error _ => emptyResult
  | .ok d =>
    match d.text with
    | none => emptyResult
    | some t =>
      let rawText := trimStr t
      if rawText.isEmpty then emptyResult
      else mkResult rawText (parseOcrText rawText)

/-- The temporary paths of one invocation. -/
def tmpsOf (o : Oracle) : List Str :=
  [o.tmpPath 0, o.tmpPath 1, o.tmpPath 2]

/-- The value computed by the try/catch of `extractTextFromImage`. -/
def extractResultOf (o : Oracle) : ExtractResult :=
  match extractTry o with
  | .ok r => r
  | .error _ => extractCatch o

/-- The file-system state after the `finally` block: every successful
temporary write added its file, then every temporary path is removed. -/
def extractFinalFS (o : Oracle) (fs : FS) : FS :=
  (fs ++ ((List.finRange 3).filterMap
    (fun i => if o.writeOk i then some (o.tmpPath i) else none))).filter
    (fun f => !(decide (f ∈ tmpsOf o)))

/-- Embedding of `extractTextFromImage`, threading the file-system state:
missing input short-circuits before any temporary file exists; otherwise
every successful temporary write adds its file, the try/catch computes the
result, and the `finally` block removes every temporary path. -/
def extractTextFromImage (o : Oracle) (fs : FS) : ExtractResult × FS :=
  match o.imagePath with
  | none => (emptyResult, fs)
  | some p =>
    if decide (p ∈ fs) then (extractResultOf o, extractFinalFS o fs)
    else (emptyResult, fs)

/-!
Supporting lemmas.
-/

/-- An `Option Str` field that is either absent or a non-empty string. -/
def NoneOrNonempty (o : Option Str) : Prop :=
  o = none ∨ ∃ s, o = some s ∧ s ≠ []

theorem orNull_noneOrNonempty (s : Str) : NoneOrNonempty (orNull s) :=
  orNull_spec s

theorem parseOcrText_nil : parseOcrText [] = nullFields := rfl

theorem parseOcrText_ne {raw : Str} (h : raw ≠ []) :
    parseOcrText raw = fieldsFrom (sanitize raw) := if_neg h

/-- C9: For every input, each of the six fields returned by `parseOcrText`
(`ocr_text`, `ocr_address`, `ocr_contact_number`, `ocr_email`, `ocr_url`,
`other_text`) is either null or a non-empty string; no field is ever the
empty string. -/
theorem parse_fields_null_or_nonempty (raw : Str) :
    NoneOrNonempty (parseOcrText raw).ocr_text ∧
    NoneOrNonempty (parseOcrText raw).ocr_address ∧
    NoneOrNonempty (parseOcrText raw).ocr_contact_number ∧
    NoneOrNonempty (parseOcrText raw).ocr_email ∧
    NoneOrNonempty (parseOcrText raw).ocr_url ∧
    NoneOrNonempty (parseOcrText raw).other_text := by
  by_cases h : raw = []
  · subst h
    rw [parseOcrText_nil]
    exact ⟨Or.inl rfl, Or.inl rfl, Or.inl rfl, Or.inl rfl, Or.inl rfl, Or.inl rfl⟩
  · rw [parseOcrText_ne h, fieldsFrom_ocr_text, fieldsFrom_ocr_address,
      fieldsFrom_ocr_contact_number, fieldsFrom_ocr_email, fieldsFrom_ocr_url,
      fieldsFrom_other_text]
    exact ⟨orNull_noneOrNonempty _, orNull_noneOrNonempty _, orNull_noneOrNonempty _,
      orNull_noneOrNonempty _, orNull_noneOrNonempty _, orNull_noneOrNonempty _⟩

theorem orNull_of_ne {s : Str} (h : s ≠ []) : orNull s = some s := if_neg h

theorem joinSep_nil (sep : Str) : joinSep sep [] = [] := rfl

theorem joinSep_single (sep x : Str) : joinSep sep [x] = x := by
  simp [joinSep, List.intercalate, List.intersperse]

theorem joinSep_cons₂ (sep x y : Str) (ys : List Str) :
    joinSep sep (x :: y :: ys) = x ++ sep ++ joinSep sep (y :: ys) := by
  simp [joinSep, List.intercalate, List.intersperse]

theorem joinSep_ne_nil_of_head {sep x : Str} (xs : List Str) (hx : x ≠ []) :
    joinSep sep (x :: xs) ≠ [] := by
  cases xs with
  | nil => rw [joinSep_single]; exact hx
  | cons y ys =>
    rw [joinSep_cons₂]
    exact List.append_ne_nil_of_left_ne_nil
      (List.append_ne_nil_of_left_ne_nil hx sep) _

theorem mem_linesFrom_ne_nil {c l : Str} (h : l ∈ linesFrom c) : l ≠ [] := by
  have hf := List.of_mem_filter h
  simp only [Bool.not_eq_true'] at hf
  intro hnil
  rw [hnil] at hf
  simp [List.isEmpty] at hf

theorem two_le_count_of_two_positions {α : Type} [BEq α] [LawfulBEq α] {l : List α} {a : α}
    {i j : Nat} (hij : i < j) (hi : l[i]? = some a) (hj : l[j]? = some a) :
    2 ≤ l.count a := by
  have h1 : a ∈ l.take j := by
    have h2 : (l.take j)[i]? = some a := by rw [List.getElem?_take, if_pos hij]; exact hi
    obtain ⟨h, rfl⟩ := List.getElem?_eq_some.mp h2
    exact List.getElem_mem h
  have h2 : a ∈ l.drop j := by
    have h3 : (l.drop j)[0]? = some a := by rw [List.getElem?_drop]; simpa using hj
    obtain ⟨h, rfl⟩ := List.getElem?_eq_some.mp h3
    exact List.getElem_mem h
  have hc : l.count a = (l.take j).count a + (l.drop j).count a := by
    conv_lhs => rw [← List.take_append_drop j l]
    exact List.count_append a _ _
  have c1 : 1 ≤ (l.take j).count a := List.count_pos_iff.mpr h1
  have c2 : 1 ≤ (l.drop j).count a := List.count_pos_iff.mpr h2
  omega

theorem linesFrom_nil : linesFrom [] = [] := rfl

/-- C10: Unlike phone numbers, emails and URLs, address lines are not
deduplicated: when the same qualifying address line occurs at two distinct
line positions of the cleaned text, it is counted (at least) twice in the
address-line list, the address-line list is the order-preserving filter of
the line list, and `ocr_address` is exactly that list joined with
separators, so the duplicate appears twice in the field, in text order. -/
theorem address_lines_not_deduplicated (raw a : Str) (i j : Nat)
    (hij : i < j)
    (hi : (linesFrom (sanitize raw))[i]? = some a)
    (hj : (linesFrom (sanitize raw))[j]? = some a)
    (ha : isAddressLine a = true) :
    2 ≤ (addressLinesFrom (sanitize raw)).count a ∧
    addressLinesFrom (sanitize raw) = (linesFrom (sanitize raw)).filter isAddressLine ∧
    (parseOcrText raw).ocr_address =
      some (joinSep " | ".data (addressLinesFrom (sanitize raw))) := by
  have hcl : 2 ≤ (linesFrom (sanitize raw)).count a :=
    two_le_count_of_two_positions hij hi hj
  have hcount : 2 ≤ (addressLinesFrom (sanitize raw)).count a := by
    unfold addressLinesFrom
    rw [List.count_filter ha]
    exact hcl
  have hraw : raw ≠ [] := by
    intro h
    subst h
    rw [show sanitize [] = [] from rfl, linesFrom_nil] at hi
    simp at hi
  refine ⟨hcount, rfl, ?_⟩
  rw [parseOcrText_ne hraw, fieldsFrom_ocr_address]
  have hmem : a ∈ addressLinesFrom (sanitize raw) := by
    have : 0 < (addressLinesFrom (sanitize raw)).count a := by omega
    exact List.count_pos_iff.mp this
  obtain ⟨x, xs, hcons⟩ := List.exists_cons_of_ne_nil (List.ne_nil_of_mem hmem)
  have hxmem : x ∈ linesFrom (sanitize raw) := by
    have : x ∈ addressLinesFrom (sanitize raw) := by rw [hcons]; exact List.mem_cons_self x xs
    exact List.mem_of_mem_filter this
  rw [hcons]
  exact orNull_of_ne (joinSep_ne_nil_of_head xs (mem_linesFrom_ne_nil hxmem))

/-- C10 witness: the address line `"st 1"` occurring on two lines appears
twice in `ocr_address`. -/
theorem address_lines_not_deduplicated_witness :
    2 ≤ (addressLinesFrom (sanitize "st 1\nst 1".data)).count "st 1".data ∧
    addressLinesFrom (sanitize "st 1\nst 1".data) =
      (linesFrom (sanitize "st 1\nst 1".data)).filter isAddressLine ∧
    (parseOcrText "st 1\nst 1".data).ocr_address =
      some (joinSep " | ".data (addressLinesFrom (sanitize "st 1\nst 1".data))) :=
  address_lines_not_deduplicated "st 1\nst 1".data "st 1".data 0 1
    (by decide) (by decide) (by decide) (by decide)

theorem sortScored_cons (x : ScoredResult) (xs : List ScoredResult) :
    sortScored (x :: xs) =
      List.orderedInsert (fun a b => b.score ≤ a.score) x (sortScored xs) := rfl

theorem sortScored_ne_nil {l : List ScoredResult} (h : l ≠ []) : sortScored l ≠ [] := by
  intro hnil
  have hp := List.perm_insertionSort (fun a b : ScoredResult => b.score ≤ a.score) l
  rw [show List.insertionSort (fun a b : ScoredResult => b.score ≤ a.score) l = sortScored l
    from rfl, hnil] at hp
  exact h (hp.nil_eq).symm

theorem orderedInsert_cons_of_not_rel {α : Type} {r : α → α → Prop} [DecidableRel r]
    {a b : α} (l : List α) (h : ¬r a b) :
    List.orderedInsert r a (b :: l) = b :: List.orderedInsert r a l := by
  rw [List.orderedInsert]
  exact if_neg h

/-- C4: The strategy selector (stable descending sort by score, then take
the head) picks the scored result with the strictly highest
average-confidence score, and on ties the one declared first: the head of
the sorted list is an element `b` at some position `n` such that every
score is at most `b.score` and every earlier-declared result scores
strictly less; in particular, for three results scored 62.0, 71.5 and 71.5
in declaration order, the second is selected. -/
theorem strategy_selector_picks_first_max :
    (∀ l : List ScoredResult, l ≠ [] →
      ∃ (n : Nat) (b : ScoredResult), l[n]? = some b ∧ (sortScored l).headI = b ∧
        (∀ x ∈ l, x.score ≤ b.score) ∧
        ∀ (m : Nat) (y : ScoredResult), m < n → l[m]? = some y → y.score < b.score) ∧
    (∀ a b c : ScoredResult, a.score = 62 → b.score = 71.5 → c.score = 71.5 →
      (sortScored [a, b, c]).headI = b) := by
  constructor
  · intro l hne
    induction l with
    | nil => exact absurd rfl hne
    | cons x xs ih =>
      cases xs with
      | nil =>
        refine ⟨0, x, rfl, rfl, ?_, ?_⟩
        · intro y hy
          rcases List.mem_cons.mp hy with h | h
          · exact le_of_eq (by rw [h])
          · simp at h
        · intro m y hm
          exact absurd hm (Nat.not_lt_zero m)
      | cons z zs =>
        obtain ⟨n1, bb, hget, hhead, hmax, hfirst⟩ := ih (by simp)
        obtain ⟨hd, tl, hcons⟩ := List.exists_cons_of_ne_nil (sortScored_ne_nil
          (show z :: zs ≠ [] by simp))
        have hhd : hd = bb := by rw [hcons] at hhead; exact hhead
        rw [hhd] at hcons
        by_cases hcmp : bb.score ≤ x.score
        · refine ⟨0, x, rfl, ?_, ?_, ?_⟩
          · rw [sortScored_cons, hcons,
              List.orderedInsert_of_le (fun a b : ScoredResult => b.score ≤ a.score) tl hcmp]
            rfl
          · intro y hy
            rcases List.mem_cons.mp hy with h | h
            · exact le_of_eq (by rw [h])
            · exact le_trans (hmax y h) hcmp
          · intro m y hm
            exact absurd hm (Nat.not_lt_zero m)
        · push_neg at hcmp
          refine ⟨n1 + 1, bb, by simpa using hget, ?_, ?_, ?_⟩
          · have hnr : ¬((fun a b : ScoredResult => b.score ≤ a.score) x bb) :=
              not_le.mpr hcmp
            rw [sortScored_cons, hcons, orderedInsert_cons_of_not_rel tl hnr]
            rfl
          · intro y hy
            rcases List.mem_cons.mp hy with h | h
            · exact le_of_lt (by rw [h]; exact hcmp)
            · exact hmax y h
          · intro m y hm hgm
            cases m with
            | zero =>
              have hxy : x = y := by simpa using hgm
              rw [← hxy]
              exact hcmp
            | succ m1 =>
              exact hfirst m1 y (by omega) (by simpa using hgm)
  · intro a b c ha hb hc
    have h1 : sortScored [c] = [c] := rfl
    have hbc : sortScored [b, c] = [b, c] := by
      rw [sortScored_cons, h1, List.orderedInsert_of_le]
      rw [hb, hc]
    have hnab : ¬(b.score ≤ a.score) := by rw [ha, hb]; norm_num
    rw [sortScored_cons, hbc, orderedInsert_cons_of_not_rel [c] hnab]
    rfl

/-- Demonstration scored results with scores 62.0, 71.5 and 71.5. -/
def tieA : ScoredResult := ⟨⟨none, none, none⟩, 62, []⟩

/-- Demonstration scored result, second of the tie pair. -/
def tieB : ScoredResult := ⟨⟨none, none, none⟩, 71.5, []⟩

/-- Demonstration scored result, third of the tie pair. -/
def tieC : ScoredResult := ⟨⟨none, none, none⟩, 71.5, []⟩

/-- C4 witness: the general selector property applied to the concrete
scored list (62.0, 71.5, 71.5), and the concrete tie-break picking the
second result. -/
theorem strategy_selector_picks_first_max_witness :
    (∃ (n : Nat) (b : ScoredResult), [tieA, tieB, tieC][n]? = some b ∧
      (sortScored [tieA, tieB, tieC]).headI = b ∧
      (∀ x ∈ [tieA, tieB, tieC], x.score ≤ b.score) ∧
      ∀ (m : Nat) (y : ScoredResult), m < n → [tieA, tieB, tieC][m]? = some y →
        y.score < b.score) ∧
    (sortScored [tieA, tieB, tieC]).headI = tieB :=
  ⟨strategy_selector_picks_first_max.1 [tieA, tieB, tieC] (List.cons_ne_nil _ _),
   strategy_selector_picks_first_max.2 tieA tieB tieC rfl rfl rfl⟩

theorem mem_dropWhile_of_not_pred {α : Type} {p : α → Bool} {l : List α} {c : α}
    (hc : c ∈ l) (hp : ¬p c = true) : c ∈ l.dropWhile p := by
  have hsplit : l.takeWhile p ++ l.dropWhile p = l := List.takeWhile_append_dropWhile p l
  rw [← hsplit] at hc
  rcases List.mem_append.mp hc with h | h
  · exact absurd (List.mem_takeWhile_imp h) hp
  · exact h

theorem trimStr_eq_nil_iff {l : Str} : trimStr l = [] ↔ ∀ c ∈ l, isWsJs c := by
  unfold trimStr dropLeadWs
  rw [List.reverse_eq_nil_iff, List.dropWhile_eq_nil_iff]
  constructor
  · intro h c hc
    by_cases hw : isWsJs c = true
    · exact hw
    · have hcr : c ∈ (l.dropWhile (fun c => isWsJs c)).reverse := by
        rw [List.mem_reverse]
        exact mem_dropWhile_of_not_pred hc hw
      exact h c hcr
  · intro h c hc
    exact h c ((List.dropWhile_sublist _).mem (List.mem_reverse.mp hc))

theorem mem_joinSep_of_mem {sep : Str} {l : List Str} {x : Str} {c : Char}
    (hx : x ∈ l) (hc : c ∈ x) : c ∈ joinSep sep l := by
  induction l with
  | nil => simp at hx
  | cons y ys ih =>
    cases ys with
    | nil =>
      have hxy : x = y := by simpa using hx
      rw [joinSep_single, ← hxy]
      exact hc
    | cons z zs =>
      rw [joinSep_cons₂]
      rcases List.mem_cons.mp hx with h | h
      · exact List.mem_append_left _ (List.mem_append_left _ (h ▸ hc))
      · exact List.mem_append_right _ (ih h)

theorem trimStr_joined_goodWords_ne_nil {ws : List OcrWord}
    (h : goodWordsOf ws ≠ []) :
    trimStr (joinSep [' '] ((goodWordsOf ws).map (fun w => w.text))) ≠ [] := by
  obtain ⟨w0, rest, hcons⟩ := List.exists_cons_of_ne_nil h
  have hw0 : w0 ∈ goodWordsOf ws := by rw [hcons]; exact List.mem_cons_self w0 rest
  have hgood := List.of_mem_filter hw0
  have htne : trimStr w0.text ≠ [] := by
    intro hnil
    rw [show (!(trimStr w0.text).isEmpty) = false by rw [hnil]; rfl] at hgood
    simp at hgood
  obtain ⟨c, hcmem, hcw⟩ : ∃ c ∈ w0.text, ¬isWsJs c := by
    by_contra hall
    push_neg at hall
    exact htne (trimStr_eq_nil_iff.mpr (by simpa using hall))
  intro hnil
  rw [trimStr_eq_nil_iff] at hnil
  exact hcw (hnil c (mem_joinSep_of_mem (List.mem_map_of_mem (fun w => w.text) hw0) hcmem))

/-- The five-token line used for C5: three tokens below the confidence
floor, two at 50. -/
def fiveTokenLine : List OcrWord :=
  [⟨"q".data, 44⟩, ⟨"r".data, 44⟩, ⟨"s".data, 44⟩, ⟨"aa".data, 50⟩, ⟨"bb".data, 50⟩]

theorem lineKept_unfold (ws : List OcrWord) :
    lineKept ⟨some ws⟩ =
      (if ws.isEmpty then none
       else if (goodWordsOf ws).isEmpty then none
       else if ((goodWordsOf ws).length : ℚ) / (ws.length : ℚ) < 2 / 5 then none
       else if (trimStr (joinSep [' '] ((goodWordsOf ws).map (fun w => w.text)))).isEmpty
         then none
       else some (trimStr (joinSep [' '] ((goodWordsOf ws).map (fun w => w.text))))) := rfl

theorem buildCleanText_single_line (ws : List OcrWord) (w : Option (List OcrWord))
    (t : Option Str) (hws : ws ≠ []) (hg : goodWordsOf ws ≠ [])
    (hratio : ¬(((goodWordsOf ws).length : ℚ) / (ws.length : ℚ) < 2 / 5)) :
    buildCleanText ⟨some [⟨some ws⟩], w, t⟩ =
      trimStr (joinSep [' '] ((goodWordsOf ws).map (fun wo => wo.text))) ∧
    buildCleanText ⟨some [⟨some ws⟩], w, t⟩ ≠ [] := by
  have hlineText := trimStr_joined_goodWords_ne_nil hg
  have hkept : lineKept ⟨some ws⟩ =
      some (trimStr (joinSep [' '] ((goodWordsOf ws).map (fun wo => wo.text)))) := by
    rw [lineKept_unfold, if_neg (by simpa using hws), if_neg (by simpa using hg),
      if_neg hratio, if_neg (by simpa using hlineText)]
  have hbuild : buildCleanText ⟨some [⟨some ws⟩], w, t⟩ =
      trimStr (joinSep [' '] ((goodWordsOf ws).map (fun wo => wo.text))) := by
    calc buildCleanText ⟨some [⟨some ws⟩], w, t⟩
        = joinSep ['\n'] (List.filterMap lineKept [⟨some ws⟩]) := rfl
      _ = joinSep ['\n'] [trimStr (joinSep [' '] ((goodWordsOf ws).map (fun wo => wo.text)))] := by
          rw [List.filterMap_cons, hkept]
          rfl
      _ = trimStr (joinSep [' '] ((goodWordsOf ws).map (fun wo => wo.text))) :=
          joinSep_single _ _
  exact ⟨hbuild, by rw [hbuild]; exact hlineText⟩

/-- C5 counterexample: a line of 5 tokens of which 3 are below the
confidence floor of 45 is NOT dropped — `buildCleanText` keeps the two
surviving tokens joined by a space (a 2/5 = 40% survival rate is not
strictly below the 0.4 rejection threshold), so part of the line is kept. -/
theorem line_three_of_five_low_not_dropped :
    buildCleanText ⟨some [⟨some fiveTokenLine⟩], none, none⟩ = "aa bb".data ∧
    "aa bb".data ≠ ([] : Str) := by
  have hratio : ¬(((goodWordsOf fiveTokenLine).length : ℚ) / (fiveTokenLine.length : ℚ)
      < 2 / 5) := by
    rw [show (goodWordsOf fiveTokenLine).length = 2 from rfl,
      show fiveTokenLine.length = 5 from rfl]
    norm_num
  obtain ⟨h1, -⟩ := buildCleanText_single_line fiveTokenLine none none
    (by decide) (by decide) hratio
  constructor
  · rw [h1]
    decide
  · decide

/-- C5 (amended): in `buildCleanText`, a line of 5 tokens of which exactly
2 survive the confidence floor (3 below it) is kept, reduced to the two
surviving tokens joined by a single space — it is not dropped, because a
40% keep ratio is not strictly below the 0.4 rejection threshold. -/
theorem line_at_forty_percent_kept (ws : List OcrWord) (w : Option (List OcrWord))
    (t : Option Str) (h5 : ws.length = 5) (h2 : (goodWordsOf ws).length = 2) :
    buildCleanText ⟨some [⟨some ws⟩], w, t⟩ =
      trimStr (joinSep [' '] ((goodWordsOf ws).map (fun wo => wo.text))) ∧
    buildCleanText ⟨some [⟨some ws⟩], w, t⟩ ≠ [] := by
  have hwsne : ws ≠ [] := by
    intro h
    rw [h] at h5
    simp at h5
  have hgne : goodWordsOf ws ≠ [] := by
    intro h
    rw [h] at h2
    simp at h2
  have hratio : ¬(((goodWordsOf ws).length : ℚ) / (ws.length : ℚ) < 2 / 5) := by
    rw [h2, h5]
    norm_num
  exact buildCleanText_single_line ws w t hwsne hgne hratio

/-- C5 amended-claim witness at the concrete five-token line. -/
theorem line_at_forty_percent_kept_witness :
    buildCleanText ⟨some [⟨some fiveTokenLine⟩], none, none⟩ =
      trimStr (joinSep [' '] ((goodWordsOf fiveTokenLine).map (fun wo => wo.text))) ∧
    buildCleanText ⟨some [⟨some fiveTokenLine⟩], none, none⟩ ≠ [] :=
  line_at_forty_percent_kept fiveTokenLine none none (by decide) (by decide)

/-!
String-normalisation lemmas: idempotence of trimming and of the two
run-collapsing replacements, and preservation of the relevant invariants.
`NoSp2 l` says `l` has no two adjacent spaces (no `/[ ]{2,}/` match is
possible), `NoNl3 l` that it has no three adjacent newlines.
-/

/-- No two adjacent spaces. -/
def NoSp2 (l : Str) : Prop := ¬([' ', ' '] <:+: l)

/-- No three adjacent newlines. -/
def NoNl3 (l : Str) : Prop := ¬(['\n', '\n', '\n'] <:+: l)

theorem not_infix_of_within {pat big sub : Str} (h : ¬(pat <:+: big))
    (hs : sub <:+: big) : ¬(pat <:+: sub) :=
  fun hp => h (hp.trans hs)

theorem dlw_cons (a : Char) (rest : Str) :
    dropLeadWs (a :: rest) = if isWsJs a then dropLeadWs rest else a :: rest := by
  simp only [dropLeadWs, List.dropWhile_cons]

theorem dlw_head? {l : Str} {c : Char} (h : (dropLeadWs l).head? = some c) :
    isWsJs c = false := by
  induction l with
  | nil => simp [dropLeadWs] at h
  | cons a rest ih =>
    rw [dlw_cons] at h
    by_cases hw : isWsJs a = true
    · rw [if_pos hw] at h
      exact ih h
    · rw [if_neg hw] at h
      have hac : a = c := by simpa using h
      rw [← hac]
      simpa using hw

theorem dlw_idem (l : Str) : dropLeadWs (dropLeadWs l) = dropLeadWs l := by
  induction l with
  | nil => rfl
  | cons a rest ih =>
    rw [dlw_cons]
    by_cases hw : isWsJs a = true
    · rw [if_pos hw]
      exact ih
    · rw [if_neg hw]
      rw [dlw_cons, if_neg hw]

theorem dlw_getLast? {l : Str} (h : dropLeadWs l ≠ []) :
    (dropLeadWs l).getLast? = l.getLast? := by
  obtain ⟨t, ht⟩ := List.dropWhile_suffix (fun c => isWsJs c) (l := l)
  conv_rhs => rw [← ht]
  exact (List.getLast?_append_of_ne_nil t h).symm

theorem dlw_ne_nil_of_rev {l : Str} (h : dropLeadWs l.reverse ≠ []) : l ≠ [] := by
  intro hl
  rw [hl] at h
  exact h rfl

theorem trimStr_head_not_ws {l : Str} {c : Char} (h : (trimStr l).head? = some c) :
    isWsJs c = false := by
  unfold trimStr at h
  rw [List.head?_reverse] at h
  have hne : dropLeadWs (dropLeadWs l).reverse ≠ [] := by
    intro hnil
    rw [hnil] at h
    simp at h
  rw [dlw_getLast? hne, List.getLast?_reverse] at h
  exact dlw_head? h

theorem trimStr_getLast_not_ws {l : Str} {c : Char} (h : (trimStr l).getLast? = some c) :
    isWsJs c = false := by
  unfold trimStr at h
  rw [List.getLast?_reverse] at h
  exact dlw_head? h

theorem dlw_eq_self_of_head {l : Str}
    (h : ∀ c, l.head? = some c → isWsJs c = false) : dropLeadWs l = l := by
  cases l with
  | nil => rfl
  | cons a rest =>
    rw [dlw_cons, if_neg]
    simp [h a rfl]

theorem trimStr_eq_self_of_ends {l : Str}
    (hh : ∀ c, l.head? = some c → isWsJs c = false)
    (hl : ∀ c, l.getLast? = some c → isWsJs c = false) : trimStr l = l := by
  unfold trimStr
  rw [dlw_eq_self_of_head hh, dlw_eq_self_of_head (by
    intro c hc
    rw [List.head?_reverse] at hc
    exact hl c hc), List.reverse_reverse]

theorem trimStr_idem (l : Str) : trimStr (trimStr l) = trimStr l :=
  trimStr_eq_self_of_ends (fun _ h => trimStr_head_not_ws h)
    (fun _ h => trimStr_getLast_not_ws h)

theorem trimStr_infix_self (l : Str) : trimStr l <:+: l := by
  have h1 : dropLeadWs l <:+ l := List.dropWhile_suffix _
  have h2 : dropLeadWs (dropLeadWs l).reverse <:+ (dropLeadWs l).reverse :=
    List.dropWhile_suffix _
  have h3 : (dropLeadWs (dropLeadWs l).reverse).reverse <+:
      ((dropLeadWs l).reverse).reverse :=
    List.reverse_prefix.mpr h2
  rw [List.reverse_reverse] at h3
  exact (h3.isInfix).trans h1.isInfix

theorem mem_of_mem_trimStr {l : Str} {c : Char} (h : c ∈ trimStr l) : c ∈ l :=
  (trimStr_infix_self l).mem h

theorem single_prefix_head {b : Char} {l : Str} : [b] <+: l ↔ l.head? = some b := by
  cases l with
  | nil => simp
  | cons c rest =>
    rw [show ([b] : Str) = b :: [] from rfl, List.cons_prefix_cons]
    simp [eq_comm]

theorem pair_prefix_head {a b : Char} {l : Str} :
    [a, b] <+: l ↔ l.head? = some a ∧ l.tail.head? = some b := by
  cases l with
  | nil => simp
  | cons c rest =>
    rw [show ([a, b] : Str) = a :: [b] from rfl, List.cons_prefix_cons,
      single_prefix_head]
    simp [eq_comm]

theorem sp2_infix_cons {c : Char} {l : Str} :
    ([' ', ' '] <:+: (c :: l)) ↔ (c = ' ' ∧ l.head? = some ' ') ∨ ([' ', ' '] <:+: l) := by
  rw [List.infix_cons_iff, pair_prefix_head]
  simp [eq_comm]

theorem nl3_infix_cons {c : Char} {l : Str} :
    (['\n', '\n', '\n'] <:+: (c :: l)) ↔
      (c = '\n' ∧ ['\n', '\n'] <+: l) ∨ (['\n', '\n', '\n'] <:+: l) := by
  rw [List.infix_cons_iff, show (['\n', '\n', '\n'] : Str) = '\n' :: ['\n', '\n'] from rfl,
    List.cons_prefix_cons]
  simp [eq_comm]

theorem collapseSp_nil : collapseSp [] = [] := rfl

theorem collapseSp_one (c : Char) : collapseSp [c] = [c] := rfl

theorem collapseNL_nil : collapseNL [] = [] := rfl

theorem collapseNL_one (c : Char) : collapseNL [c] = [c] := rfl

theorem collapseNL_two (a b : Char) : collapseNL [a, b] = [a, b] := rfl

theorem collapseNL_small {l : Str}
    (h : ∀ (c1 c2 c3 : Char) (rest : Str), l = c1 :: c2 :: c3 :: rest → False) :
    collapseNL l = l := by
  rcases l with _ | ⟨a, _ | ⟨b, _ | ⟨c, t⟩⟩⟩
  · rfl
  · rfl
  · rfl
  · exact (h a b c t rfl).elim

theorem collapseSp_head? (l : Str) : (collapseSp l).head? = l.head? := by
  induction l using collapseSp.induct with
  | case1 => rfl
  | case2 c => rfl
  | case3 c1 c2 rest h ih =>
    have hg := h
    simp only [Bool.and_eq_true, decide_eq_true_eq] at hg
    rw [collapseSp, if_pos h, ih]
    simp [hg.1, hg.2]
  | case4 c1 c2 rest h ih =>
    rw [collapseSp, if_neg h]
    rfl

theorem collapseSp_subset {l : Str} {c : Char} (h : c ∈ collapseSp l) : c ∈ l := by
  induction l using collapseSp.induct with
  | case1 => simpa [collapseSp_nil] using h
  | case2 d => simpa [collapseSp_one] using h
  | case3 c1 c2 rest hg ih =>
    rw [collapseSp, if_pos hg] at h
    exact List.mem_cons_of_mem c1 (ih h)
  | case4 c1 c2 rest hg ih =>
    rw [collapseSp, if_neg hg] at h
    rcases List.mem_cons.mp h with h1 | h1
    · rw [h1]; exact List.mem_cons_self c1 _
    · exact List.mem_cons_of_mem c1 (ih h1)

theorem collapseSp_eq_self {l : Str} (h : NoSp2 l) : collapseSp l = l := by
  induction l using collapseSp.induct with
  | case1 => rfl
  | case2 c => rfl
  | case3 c1 c2 rest hg ih =>
    simp only [Bool.and_eq_true, decide_eq_true_eq] at hg
    exact absurd ⟨[], rest, by rw [hg.1, hg.2]; rfl⟩ h
  | case4 c1 c2 rest hg ih =>
    rw [collapseSp, if_neg hg, ih (not_infix_of_within h ((List.suffix_cons c1 _).isInfix))]

theorem collapseSp_noSp2 (l : Str) : NoSp2 (collapseSp l) := by
  induction l using collapseSp.induct with
  | case1 =>
    intro hinf
    rw [collapseSp_nil] at hinf
    simpa using hinf.length_le
  | case2 c =>
    intro hinf
    rw [collapseSp_one] at hinf
    simpa using hinf.length_le
  | case3 c1 c2 rest hg ih =>
    rw [collapseSp, if_pos hg]
    exact ih
  | case4 c1 c2 rest hg ih =>
    rw [collapseSp, if_neg hg]
    intro hinf
    rcases sp2_infix_cons.mp hinf with ⟨hc1, hh⟩ | hrest
    · rw [collapseSp_head?] at hh
      have hc2 : c2 = ' ' := by simpa using hh
      exact hg (by simp [hc1, hc2])
    · exact ih hrest

theorem collapseNL_head? (l : Str) : (collapseNL l).head? = l.head? := by
  induction l using collapseNL.induct with
  | case1 c1 c2 c3 rest h ih =>
    have hg := h
    simp only [Bool.and_eq_true, decide_eq_true_eq] at hg
    rw [collapseNL, if_pos h, ih]
    simp [hg.1.1, hg.1.2]
  | case2 c1 c2 c3 rest h ih =>
    rw [collapseNL, if_neg h]
    rfl
  | case3 l h =>
    rw [collapseNL_small h]

theorem collapseNL_subset {l : Str} {c : Char} (h : c ∈ collapseNL l) : c ∈ l := by
  induction l using collapseNL.induct with
  | case1 c1 c2 c3 rest hg ih =>
    rw [collapseNL, if_pos hg] at h
    exact List.mem_cons_of_mem c1 (ih h)
  | case2 c1 c2 c3 rest hg ih =>
    rw [collapseNL, if_neg hg] at h
    rcases List.mem_cons.mp h with h1 | h1
    · rw [h1]; exact List.mem_cons_self c1 _
    · exact List.mem_cons_of_mem c1 (ih h1)
  | case3 l hsmall =>
    rw [collapseNL_small hsmall] at h
    exact h

theorem collapseNL_eq_self {l : Str} (h : NoNl3 l) : collapseNL l = l := by
  induction l using collapseNL.induct with
  | case1 c1 c2 c3 rest hg ih =>
    simp only [Bool.and_eq_true, decide_eq_true_eq] at hg
    exact absurd ⟨[], rest, by rw [hg.1.1, hg.1.2, hg.2]; rfl⟩ h
  | case2 c1 c2 c3 rest hg ih =>
    rw [collapseNL, if_neg hg,
      ih (not_infix_of_within h ((List.suffix_cons c1 _).isInfix))]
  | case3 l hsmall =>
    exact collapseNL_small hsmall

theorem collapseNL_second {c2 c3 : Char} (rest : Str)
    (h : ¬(c2 = '\n' ∧ c3 = '\n')) :
    (collapseNL (c2 :: c3 :: rest)).tail.head? = some c3 := by
  cases rest with
  | nil => rfl
  | cons r rs =>
    rw [collapseNL, if_neg (by
      simp only [Bool.and_eq_true, decide_eq_true_eq]
      intro hc
      exact h ⟨hc.1.1, hc.1.2⟩)]
    show (collapseNL (c3 :: r :: rs)).head? = some c3
    rw [collapseNL_head?]
    rfl

theorem collapseNL_noNl3 (l : Str) : NoNl3 (collapseNL l) := by
  induction l using collapseNL.induct with
  | case1 c1 c2 c3 rest hg ih =>
    rw [collapseNL, if_pos hg]
    exact ih
  | case2 c1 c2 c3 rest hg ih =>
    have hg2 := hg
    simp only [Bool.and_eq_true, decide_eq_true_eq, not_and] at hg2
    rw [collapseNL, if_neg hg]
    intro hinf
    rcases nl3_infix_cons.mp hinf with ⟨hc1, hpre⟩ | hrest
    · rw [pair_prefix_head, collapseNL_head?] at hpre
      have hc2 : c2 = '\n' := by simpa using hpre.1
      have hc3ne : ¬(c2 = '\n' ∧ c3 = '\n') := by
        intro hc
        exact hg2 ⟨hc1, hc.1⟩ hc.2
      rw [collapseNL_second rest hc3ne] at hpre
      have hc3 : c3 = '\n' := by simpa using hpre.2
      exact hc3ne ⟨hc2, hc3⟩
    · exact ih hrest
  | case3 l hsmall =>
    intro hinf
    have hlen := hinf.length_le
    rw [collapseNL_small hsmall] at hinf hlen
    rcases l with _ | ⟨a, _ | ⟨b, _ | ⟨c, t⟩⟩⟩
    · simp at hlen
    · simp at hlen
    · simp at hlen
    · exact (hsmall a b c t rfl).elim

theorem collapseNL_noSp2 {l : Str} (h : NoSp2 l) : NoSp2 (collapseNL l) := by
  induction l using collapseNL.induct with
  | case1 c1 c2 c3 rest hg ih =>
    rw [collapseNL, if_pos hg]
    exact ih (not_infix_of_within h ((List.suffix_cons c1 _).isInfix))
  | case2 c1 c2 c3 rest hg ih =>
    rw [collapseNL, if_neg hg]
    intro hinf
    rcases sp2_infix_cons.mp hinf with ⟨hc1, hh⟩ | hrest
    · rw [collapseNL_head?] at hh
      have hc2 : c2 = ' ' := by simpa using hh
      exact h ⟨[], c3 :: rest, by rw [hc1, hc2]; rfl⟩
    · exact ih (not_infix_of_within h ((List.suffix_cons c1 _).isInfix)) hrest
  | case3 l hsmall =>
    rw [collapseNL_small hsmall]
    exact h

theorem infix_joinSep_of_mem {sep : Str} {l : List Str} {x : Str} (hx : x ∈ l) :
    x <:+: joinSep sep l := by
  induction l with
  | nil => simp at hx
  | cons y ys ih =>
    cases ys with
    | nil =>
      have hxy : x = y := by simpa using hx
      rw [joinSep_single, hxy]
    | cons z zs =>
      rw [joinSep_cons₂]
      rcases List.mem_cons.mp hx with h | h
      · rw [h, List.append_assoc]
        exact (List.prefix_append y (sep ++ joinSep sep (z :: zs))).isInfix
      · exact (ih h).trans (List.suffix_append (y ++ sep) _).isInfix

theorem joinSep_head? {sep x : Str} (xs : List Str) (hx : x ≠ []) :
    (joinSep sep (x :: xs)).head? = x.head? := by
  cases xs with
  | nil => rw [joinSep_single]
  | cons y ys =>
    rw [joinSep_cons₂, List.append_assoc]
    exact List.head?_append_of_ne_nil _ hx

theorem joinSep_getLast? {sep : Str} {lines : List Str}
    (hall : ∀ l ∈ lines, l ≠ []) :
    ∀ {c : Char}, (joinSep sep lines).getLast? = some c →
      ∃ l ∈ lines, l.getLast? = some c := by
  induction lines with
  | nil =>
    intro c h
    simp [joinSep_nil] at h
  | cons x xs ih =>
    intro c h
    cases xs with
    | nil =>
      rw [joinSep_single] at h
      exact ⟨x, List.mem_cons_self x [], h⟩
    | cons y ys =>
      rw [joinSep_cons₂] at h
      have hyne : joinSep sep (y :: ys) ≠ [] :=
        joinSep_ne_nil_of_head ys (hall y (by simp))
      rw [List.getLast?_append_of_ne_nil _ hyne] at h
      obtain ⟨l, hl, hlast⟩ := ih (fun l hl => hall l (List.mem_cons_of_mem x hl)) h
      exact ⟨l, List.mem_cons_of_mem x hl, hlast⟩

theorem infix_of_mem_splitNL {z p : Str} (h : p ∈ splitNL z) : p <:+: z := by
  have hz : List.intercalate ['\n'] (z.splitOn '\n') = z := List.intercalate_splitOn z '\n'
  have hinf : p <:+: joinSep ['\n'] (splitNL z) := infix_joinSep_of_mem h
  rw [show joinSep ['\n'] (splitNL z) = z from hz] at hinf
  exact hinf

/-!
Regular-expression engine lemmas: a successful match consumes a prefix of
the haystack, and `/g` replacement is the identity when there is no match.
-/

theorem orElse_eq_some {α : Type} {a : Option α} {f : Unit → Option α} {res : α}
    (h : a.orElse f = some res) : a = some res ∨ f () = some res := by
  cases a with
  | none => right; simpa [Option.orElse] using h
  | some v => left; simpa [Option.orElse] using h

theorem starMtch_suffix {f : Char → Bool} {prev : Option Char} {s : Str}
    {k : Option Char → Str → Option Str} {res : Str}
    (h : starMtch f prev s k = some res) :
    ∃ p t, t <:+ s ∧ k p t = some res := by
  induction s generalizing prev with
  | nil => exact ⟨prev, [], List.nil_suffix, h⟩
  | cons c rest ih =>
    rw [starMtch] at h
    by_cases hf : f c = true
    · rw [if_pos hf] at h
      rcases orElse_eq_some h with h1 | h1
      · obtain ⟨p, t, hsuf, hk⟩ := ih h1
        exact ⟨p, t, hsuf.trans (List.suffix_cons c rest), hk⟩
      · exact ⟨prev, c :: rest, List.suffix_rfl, h1⟩
    · rw [if_neg hf] at h
      exact ⟨prev, c :: rest, List.suffix_rfl, h⟩

theorem mtch_suffix (r : RE) :
    ∀ {prev : Option Char} {s : Str} {k : Option Char → Str → Option Str} {res : Str},
      mtch r prev s k = some res → ∃ p t, t <:+ s ∧ k p t = some res := by
  induction r with
  | eps =>
    intro prev s k res h
    exact ⟨prev, s, List.suffix_rfl, h⟩
  | cls f =>
    intro prev s k res h
    cases s with
    | nil => simp [mtch] at h
    | cons c rest =>
      rw [mtch] at h
      by_cases hf : f c = true
      · rw [if_pos hf] at h
        exact ⟨some c, rest, List.suffix_cons c rest, h⟩
      · rw [if_neg hf] at h
        simp at h
  | seq r1 r2 ih1 ih2 =>
    intro prev s k res h
    rw [mtch] at h
    obtain ⟨p1, t1, hs1, hk1⟩ := ih1 h
    obtain ⟨p2, t2, hs2, hk2⟩ := ih2 hk1
    exact ⟨p2, t2, hs2.trans hs1, hk2⟩
  | alt r1 r2 ih1 ih2 =>
    intro prev s k res h
    rw [mtch] at h
    rcases orElse_eq_some h with h1 | h1
    · exact ih1 h1
    · exact ih2 h1
  | opt r ih =>
    intro prev s k res h
    rw [mtch] at h
    rcases orElse_eq_some h with h1 | h1
    · exact ih h1
    · exact ⟨prev, s, List.suffix_rfl, h1⟩
  | starCls f =>
    intro prev s k res h
    exact starMtch_suffix h
  | bnd =>
    intro prev s k res h
    rw [mtch] at h
    by_cases hb : atBoundary prev s = true
    · rw [if_pos hb] at h
      exact ⟨prev, s, List.suffix_rfl, h⟩
    · rw [if_neg hb] at h
      simp at h

theorem matchAt_append {r : RE} {prev : Option Char} {s m rest : Str}
    (h : matchAt r prev s = some (m, rest)) : m ++ rest = s := by
  unfold matchAt at h
  cases hm : mtch r prev s (fun _ rest => some rest) with
  | none => rw [hm] at h; simp at h
  | some rest0 =>
    rw [hm] at h
    obtain ⟨p, t, hsuf, hk⟩ := mtch_suffix r hm
    have ht : t = rest0 := by simpa using hk
    obtain ⟨u, hu⟩ := hsuf
    have hrest : rest = rest0 := by
      have h2 := congrArg Prod.snd (Option.some.inj h)
      simpa using h2.symm
    have hmm : m = s.take (s.length - rest0.length) := by
      have := congrArg Prod.fst (Option.some.inj h)
      simpa using this.symm
    have hulen : s.length - rest0.length = u.length := by
      rw [← hu, ← ht]
      simp
    rw [hmm, hrest, hulen, ← hu, ← ht]
    rw [List.take_left]

theorem scanF_flatten :
    ∀ (fuel : Nat) (r : RE) (prev : Option Char) (s : Str), s.length ≤ fuel →
      (((scanF fuel r prev s).map (fun seg => seg.2)).flatten) = s := by
  intro fuel
  induction fuel with
  | zero =>
    intro r prev s hlen
    rw [Nat.le_zero] at hlen
    rw [List.length_eq_zero.mp hlen]
    rfl
  | succ n ih =>
    intro r prev s hlen
    cases s with
    | nil => rfl
    | cons c rest =>
      rw [scanF]
      cases hma : matchAt r prev (c :: rest) with
      | none =>
        simp only [List.map_cons, List.flatten_cons]
        rw [ih r (some c) rest (by simpa using Nat.le_of_succ_le_succ hlen)]
        rfl
      | some pr =>
        obtain ⟨m, rest2⟩ := pr
        cases m with
        | nil =>
          simp only [List.map_cons, List.flatten_cons]
          rw [ih r (some c) rest (by simpa using Nat.le_of_succ_le_succ hlen)]
          rfl
        | cons mc mrest =>
          simp only [List.map_cons, List.flatten_cons]
          have happ : (mc :: mrest) ++ rest2 = c :: rest := matchAt_append hma
          have hlen2 : rest2.length ≤ n := by
            have := congrArg List.length happ
            simp only [List.length_append, List.length_cons] at this hlen
            omega
          rw [ih r (mc :: mrest).getLast? rest2 hlen2]
          exact happ

theorem replaceAll_of_no_match {r : RE} {s : Str} (h : matchAll r s = []) :
    replaceAll r s = s := by
  unfold matchAll at h
  unfold replaceAll
  have hfil : (scanRE r s).filter (fun seg => seg.1) = [] := by
    cases hf : (scanRE r s).filter (fun seg => seg.1) with
    | nil => rfl
    | cons a t =>
      rw [hf] at h
      simp at h
  have hall : ∀ seg ∈ scanRE r s, ¬(seg.1 = true) := List.filter_eq_nil_iff.mp hfil
  rw [List.filter_eq_self.mpr (fun seg hseg => by
    have hb := hall seg hseg
    cases hv : seg.1
    · rfl
    · exact absurd hv hb)]
  exact scanF_flatten s.length r none s le_rfl

/-!
Invariants of the sanitised text and idempotence of sanitation.
-/

theorem trimStr_noSp2 {l : Str} (h : NoSp2 l) : NoSp2 (trimStr l) :=
  not_infix_of_within h (trimStr_infix_self l)

theorem trimStr_noNl3 {l : Str} (h : NoNl3 l) : NoNl3 (trimStr l) :=
  not_infix_of_within h (trimStr_infix_self l)

theorem sanitize_noSp2 (raw : Str) : NoSp2 (sanitize raw) :=
  trimStr_noSp2 (collapseNL_noSp2 (collapseSp_noSp2 _))

theorem sanitize_noNl3 (raw : Str) : NoNl3 (sanitize raw) :=
  trimStr_noNl3 (collapseNL_noNl3 _)

theorem sanitize_chars {raw : Str} {c : Char} (hc : c ∈ sanitize raw) :
    allowedCh c = true ∧ c ≠ '\t' := by
  have h1 : c ∈ tabToSp (raw.filter allowedCh) :=
    collapseSp_subset (collapseNL_subset (mem_of_mem_trimStr hc))
  obtain ⟨d, hd, hdc⟩ := List.mem_map.mp h1
  have hda : allowedCh d = true := List.of_mem_filter hd
  by_cases ht : d = '\t'
  · rw [ht] at hda
    simp [allowedCh, isAsciiAlpha, isDigitCh] at hda
  · rw [if_neg ht] at hdc
    rw [← hdc]
    exact ⟨hda, ht⟩

theorem tabToSp_eq_self {l : Str} (h : ∀ c ∈ l, c ≠ '\t') : tabToSp l = l := by
  unfold tabToSp
  have hcongr : l.map (fun c => if c = '\t' then ' ' else c) = l.map id :=
    List.map_congr_left (fun c hc => by rw [if_neg (h c hc)]; rfl)
  rw [hcongr, List.map_id]

theorem sanitize_unfold (raw : Str) :
    sanitize raw = trimStr (collapseNL (collapseSp (tabToSp (raw.filter allowedCh)))) := rfl

theorem sanitize_idem (raw : Str) : sanitize (sanitize raw) = sanitize raw := by
  have h1 : (sanitize raw).filter allowedCh = sanitize raw :=
    List.filter_eq_self.mpr (fun c hc => (sanitize_chars hc).1)
  have h2 : tabToSp (sanitize raw) = sanitize raw :=
    tabToSp_eq_self (fun c hc => (sanitize_chars hc).2)
  have h3 : collapseSp (sanitize raw) = sanitize raw :=
    collapseSp_eq_self (sanitize_noSp2 raw)
  have h4 : collapseNL (sanitize raw) = sanitize raw :=
    collapseNL_eq_self (sanitize_noNl3 raw)
  have h5 : trimStr (sanitize raw) = sanitize raw := by
    rw [sanitize_unfold raw, trimStr_idem]
  rw [sanitize_unfold (sanitize raw), h1, h2, h3, h4, h5]

/-!
Facts about the line list of the cleaned text.
-/

theorem mem_linesFrom {z l : Str} (h : l ∈ linesFrom z) :
    ∃ p ∈ splitNL z, l = trimStr p := by
  obtain ⟨hmem, -⟩ := List.mem_filter.mp h
  obtain ⟨p, hp, hpl⟩ := List.mem_map.mp hmem
  exact ⟨p, hp, hpl.symm⟩

theorem linesFrom_trim {z l : Str} (h : l ∈ linesFrom z) : trimStr l = l := by
  obtain ⟨p, -, hpl⟩ := mem_linesFrom h
  rw [hpl, trimStr_idem]

theorem linesFrom_infix_mem {z l : Str} (h : l ∈ linesFrom z) : l <:+: z := by
  obtain ⟨p, hp, hpl⟩ := mem_linesFrom h
  rw [hpl]
  exact (trimStr_infix_self p).trans (infix_of_mem_splitNL hp)

theorem linesFrom_noSp2 {raw l : Str} (h : l ∈ linesFrom (sanitize raw)) : NoSp2 l :=
  not_infix_of_within (sanitize_noSp2 raw) (linesFrom_infix_mem h)

theorem stripLine_id {raw l : Str} (h : l ∈ linesFrom (sanitize raw))
    (hp : matchAll phoneRE l = []) (he : matchAll emailRE l = [])
    (hu : matchAll urlRE l = []) : stripLine l = l := by
  unfold stripLine
  rw [replaceAll_of_no_match hp, replaceAll_of_no_match he, replaceAll_of_no_match hu,
    collapseSp_eq_self (linesFrom_noSp2 h), linesFrom_trim h]

theorem trimStr_formattedFrom (z : Str) :
    trimStr (formattedFrom z) = formattedFrom z := by
  cases hl : linesFrom z with
  | nil => rw [formattedFrom, hl, joinSep_nil]; rfl
  | cons l0 rest =>
    rw [formattedFrom, hl]
    apply trimStr_eq_self_of_ends
    · intro c hc
      rw [joinSep_head? rest (mem_linesFrom_ne_nil (by rw [hl]; exact List.mem_cons_self l0 rest))] at hc
      have h0 : trimStr l0 = l0 := linesFrom_trim (by rw [hl]; exact List.mem_cons_self l0 rest)
      rw [← h0] at hc
      exact trimStr_head_not_ws hc
    · intro c hc
      obtain ⟨l, hlm, hlast⟩ := joinSep_getLast?
        (fun l hlm => mem_linesFrom_ne_nil (by rw [hl]; exact hlm)) hc
      have h0 : trimStr l = l := linesFrom_trim (by rw [hl]; exact hlm)
      rw [← h0] at hlast
      exact trimStr_getLast_not_ws hlast

theorem otherLinesFrom_unfold (z : Str) :
    otherLinesFrom z =
      (((linesFrom z).filter (fun line =>
          !(decide (trimStr line ∈ (addressLinesFrom z).map trimStr) ||
            decide (trimStr line ∈ (emailsFrom z).map trimStr) ||
            decide (trimStr line ∈ (urlsFrom z).map trimStr)))).map stripLine).filter
        (fun l => decide (1 < l.length)) := rfl

/-!
Claim C6.
-/

/-- C6 counterexample: `parseOcrText` is not idempotent on its own
`ocr_text` output.  On `"12 \n345 678"` no phone pattern matches (the two
whitespace characters after `"12"` block the grouped pattern), so
`ocr_contact_number` is null; re-parsing the produced
`ocr_text = "12\n345 678"` finds the phone match `"12\n345 678"` across the
single newline, so `ocr_contact_number` becomes `"12 345 678"`. -/
theorem parse_reparse_contact_differs :
    (parseOcrText "12 \n345 678".data).ocr_text = some "12\n345 678".data ∧
    (parseOcrText "12 \n345 678".data).ocr_contact_number = none ∧
    (parseOcrText "12\n345 678".data).ocr_contact_number = some "12 345 678".data := by
  refine ⟨by decide, by decide, by decide⟩

/-- C6 (amended): on every input whose canonical cleaned text is already in
formatted line form (no blank lines, no space padding around lines, i.e.
`sanitize raw = formattedFrom (sanitize raw)`), `parseOcrText` is
idempotent: applying it to the produced `ocr_text` yields the identical
six-field record.  In general idempotence fails: rejoining the trimmed
lines renormalises whitespace and can expose new phone matches. -/
theorem parse_idempotent_on_canonical (raw : Str)
    (hc : sanitize raw = formattedFrom (sanitize raw))
    (hne : formattedFrom (sanitize raw) ≠ []) :
    parseOcrText (formattedFrom (sanitize raw)) = parseOcrText raw := by
  have hraw : raw ≠ [] := by
    intro h
    subst h
    exact hne rfl
  rw [parseOcrText_ne hraw, parseOcrText_ne hne, ← hc, sanitize_idem]

/-- C6 witness: a concrete canonical input. -/
theorem parse_idempotent_on_canonical_witness :
    parseOcrText (formattedFrom (sanitize "ab\ncd".data)) = parseOcrText "ab\ncd".data :=
  parse_idempotent_on_canonical "ab\ncd".data (by decide) (by decide)

/-!
Claim C7.
-/

/-- C7 counterexample: on the cleaned text `"a"` no phone, email, URL or
address pattern matches, and `ocr_text` is `"a"`, but `other_text` is null
rather than equal to `ocr_text`: the surviving line is dropped by the
final length ≤ 1 filter. -/
theorem no_match_single_char_line_dropped :
    matchAll phoneRE (sanitize "a".data) = [] ∧
    matchAll emailRE (sanitize "a".data) = [] ∧
    matchAll urlRE (sanitize "a".data) = [] ∧
    addressLinesFrom (sanitize "a".data) = [] ∧
    (parseOcrText "a".data).ocr_text = some "a".data ∧
    (parseOcrText "a".data).other_text = none := by
  refine ⟨by decide, by decide, by decide, by decide, by decide, by decide⟩

/-- C7 (amended): for every cleaned text with at least one line in which no
phone, email, URL or address-line pattern matches (neither in the whole
canonical text nor within any line) and in which every line has length at
least 2, `parseOcrText` returns a non-null `ocr_text`, null
`ocr_address`, `ocr_contact_number`, `ocr_email` and `ocr_url`, and
`other_text` equal to `ocr_text`.  (The original claim fails for lines of
length 1, which are dropped from `other_text`.) -/
theorem parse_no_match_passthrough (raw : Str)
    (hlne : linesFrom (sanitize raw) ≠ [])
    (hlen : ∀ l ∈ linesFrom (sanitize raw), 1 < l.length)
    (hp : matchAll phoneRE (sanitize raw) = [])
    (he : matchAll emailRE (sanitize raw) = [])
    (hu : matchAll urlRE (sanitize raw) = [])
    (ha : addressLinesFrom (sanitize raw) = [])
    (hpl : ∀ l ∈ linesFrom (sanitize raw), matchAll phoneRE l = [] ∧
      matchAll emailRE l = [] ∧ matchAll urlRE l = []) :
    (parseOcrText raw).ocr_text = some (formattedFrom (sanitize raw)) ∧
    (parseOcrText raw).ocr_address = none ∧
    (parseOcrText raw).ocr_contact_number = none ∧
    (parseOcrText raw).ocr_email = none ∧
    (parseOcrText raw).ocr_url = none ∧
    (parseOcrText raw).other_text = (parseOcrText raw).ocr_text := by
  have hraw : raw ≠ [] := by
    intro h
    subst h
    exact hlne rfl
  have hfmt : formattedFrom (sanitize raw) ≠ [] := by
    obtain ⟨l0, rest, hcons⟩ := List.exists_cons_of_ne_nil hlne
    rw [formattedFrom, hcons]
    exact joinSep_ne_nil_of_head rest
      (mem_linesFrom_ne_nil (by rw [hcons]; exact List.mem_cons_self l0 rest))
  have hphones : phonesFrom (sanitize raw) = [] := by
    unfold phonesFrom
    rw [hp]
    rfl
  have hemails : emailsFrom (sanitize raw) = [] := he
  have hurls : urlsFrom (sanitize raw) = [] := hu
  have hother : otherLinesFrom (sanitize raw) = linesFrom (sanitize raw) := by
    have hpred : (linesFrom (sanitize raw)).filter (fun line =>
        !(decide (trimStr line ∈ (List.map trimStr ([] : List Str))) ||
          decide (trimStr line ∈ (List.map trimStr ([] : List Str))) ||
          decide (trimStr line ∈ (List.map trimStr ([] : List Str))))) =
        linesFrom (sanitize raw) :=
      List.filter_eq_self.mpr (fun l hl => by simp)
    have hmapid : List.map stripLine (linesFrom (sanitize raw)) =
        linesFrom (sanitize raw) :=
      (List.map_congr_left (fun l hl => by
        rw [stripLine_id hl (hpl l hl).1 (hpl l hl).2.1 (hpl l hl).2.2]; rfl)).trans
        (List.map_id _)
    have hfilterlen : (linesFrom (sanitize raw)).filter
        (fun l => decide (1 < l.length)) = linesFrom (sanitize raw) :=
      List.filter_eq_self.mpr (fun l hl => by simpa using hlen l hl)
    rw [otherLinesFrom_unfold, ha, hemails, hurls, hpred, hmapid, hfilterlen]
  have hotherText : otherTextFrom (sanitize raw) = formattedFrom (sanitize raw) := by
    rw [otherTextFrom, hother, show joinSep ['\n'] (linesFrom (sanitize raw)) =
      formattedFrom (sanitize raw) from rfl, trimStr_formattedFrom]
  refine ⟨?_, ?_, ?_, ?_, ?_, ?_⟩
  · rw [parseOcrText_ne hraw, fieldsFrom_ocr_text]
    exact orNull_of_ne hfmt
  · rw [parseOcrText_ne hraw, fieldsFrom_ocr_address, ha]
    rfl
  · rw [parseOcrText_ne hraw, fieldsFrom_ocr_contact_number, hphones]
    rfl
  · rw [parseOcrText_ne hraw, fieldsFrom_ocr_email, hemails]
    rfl
  · rw [parseOcrText_ne hraw, fieldsFrom_ocr_url, hurls]
    rfl
  · rw [parseOcrText_ne hraw, fieldsFrom_other_text, fieldsFrom_ocr_text, hotherText]

/-- C7 witness at the concrete two-line input `"ab\ncd"`. -/
theorem parse_no_match_passthrough_witness :
    (parseOcrText "ab\ncd".data).ocr_text = some (formattedFrom (sanitize "ab\ncd".data)) ∧
    (parseOcrText "ab\ncd".data).ocr_address = none ∧
    (parseOcrText "ab\ncd".data).ocr_contact_number = none ∧
    (parseOcrText "ab\ncd".data).ocr_email = none ∧
    (parseOcrText "ab\ncd".data).ocr_url = none ∧
    (parseOcrText "ab\ncd".data).other_text = (parseOcrText "ab\ncd".data).ocr_text :=
  parse_no_match_passthrough "ab\ncd".data (by decide) (by decide) (by decide)
    (by decide) (by decide) (by decide) (by decide)

/-!
Claim C1.
-/

/-- C1 counterexample: on the transcript `"st 5\n12345678st 5"` the first
line `"st 5"` is an address line; the second line survives the pure-line
filters (it is not itself an address line: the digits glued to `st`
suppress the word boundary), but inline phone stripping removes
`"12345678"` and reduces it to exactly `"st 5"` — so `other_text` consists
of a line equal to a line of the address field. -/
theorem other_text_line_equals_address_line :
    (parseOcrText "st 5\n12345678st 5".data).other_text = some "st 5".data ∧
    (parseOcrText "st 5\n12345678st 5".data).ocr_address = some "st 5".data ∧
    otherLinesFrom (sanitize "st 5\n12345678st 5".data) = ["st 5".data] ∧
    addressLinesFrom (sanitize "st 5\n12345678st 5".data) = ["st 5".data] ∧
    trimStr "st 5".data ∈
      (addressLinesFrom (sanitize "st 5\n12345678st 5".data)).map trimStr := by
  refine ⟨by decide, by decide, by decide, by decide, by decide⟩

/-- C1 (amended): on every input where the inline phone/email/URL stripping
leaves each surviving line (a line that passed the pure-line exclusion)
unchanged, no line of `other_text` is equal (after trimming) to any
address line, email or URL; in general the invariant fails, because
stripping can reduce a surviving line to text equal to an extracted
address line. -/
theorem other_lines_exclude_extracted_when_strip_id (raw : Str)
    (hstrip : ∀ l ∈ survivingLinesFrom (sanitize raw), stripLine l = l) :
    ∀ t ∈ otherLinesFrom (sanitize raw),
      trimStr t ∉ (addressLinesFrom (sanitize raw)).map trimStr ∧
      trimStr t ∉ (emailsFrom (sanitize raw)).map trimStr ∧
      trimStr t ∉ (urlsFrom (sanitize raw)).map trimStr := by
  intro t ht
  rw [otherLinesFrom_unfold] at ht
  obtain ⟨hmem, -⟩ := List.mem_filter.mp ht
  obtain ⟨l, hl, hlt⟩ := List.mem_map.mp hmem
  have hsurv : l ∈ survivingLinesFrom (sanitize raw) := hl
  obtain ⟨hline, hpred⟩ := List.mem_filter.mp hl
  have htl : t = l := by rw [← hlt, hstrip l hsurv]
  simp only [Bool.not_eq_eq_eq_not, Bool.not_true, Bool.or_eq_false_iff,
    decide_eq_false_iff_not] at hpred
  rw [htl]
  exact ⟨hpred.1.1, hpred.1.2, hpred.2⟩

/-- C1 witness: the input `"a@b.cd\nhello there"` has a non-empty email
field (the first line is a pure email and is dropped by the exclusion),
its single surviving line `"hello there"` is untouched by stripping, and
the theorem instantiated at that line shows it differs from every
extracted address line, email and URL. -/
theorem other_lines_exclude_extracted_witness :
    emailsFrom (sanitize "a@b.cd\nhello there".data) = ["a@b.cd".data] ∧
    survivingLinesFrom (sanitize "a@b.cd\nhello there".data) =
      ["hello there".data] ∧
    (trimStr "hello there".data ∉
        (addressLinesFrom (sanitize "a@b.cd\nhello there".data)).map trimStr ∧
      trimStr "hello there".data ∉
        (emailsFrom (sanitize "a@b.cd\nhello there".data)).map trimStr ∧
      trimStr "hello there".data ∉
        (urlsFrom (sanitize "a@b.cd\nhello there".data)).map trimStr) :=
  ⟨by decide, by decide,
    other_lines_exclude_extracted_when_strip_id "a@b.cd\nhello there".data
      (by decide) "hello there".data (by decide)⟩

/-!
Claims about the `extractTextFromImage` pipeline model.
-/

theorem tmpPath_mem_tmpsOf (o : Oracle) (i : Fin 3) : o.tmpPath i ∈ tmpsOf o := by
  fin_cases i <;> simp [tmpsOf]

theorem extract_snd {o : Oracle} {fs : FS} {p : Str}
    (hip : o.imagePath = some p) (hex : p ∈ fs) :
    (extractTextFromImage o fs).2 = extractFinalFS o fs := by
  unfold extractTextFromImage
  rw [hip]
  show (if decide (p ∈ fs) = true then (extractResultOf o, extractFinalFS o fs)
    else (emptyResult, fs)).2 = extractFinalFS o fs
  rw [if_pos (decide_eq_true hex)]

theorem extract_fst {o : Oracle} {fs : FS} {p : Str}
    (hip : o.imagePath = some p) (hex : p ∈ fs) :
    (extractTextFromImage o fs).1 = extractResultOf o := by
  unfold extractTextFromImage
  rw [hip]
  show (if decide (p ∈ fs) = true then (extractResultOf o, extractFinalFS o fs)
    else (emptyResult, fs)).1 = extractResultOf o
  rw [if_pos (decide_eq_true hex)]

/-- C8: On every exit path of `extractTextFromImage` — success, degraded
fallback, and total failure — every temporary derived-image path of the
invocation is absent from the final file-system state: the `finally` block
deletes the temporaries unconditionally (when the input path is missing,
the pipeline returns before any temporary is created). -/
theorem temp_files_deleted (o : Oracle) (fs : FS) (p : Str) (i : Fin 3)
    (hip : o.imagePath = some p) (hex : p ∈ fs) :
    o.tmpPath i ∉ (extractTextFromImage o fs).2 := by
  rw [extract_snd hip hex]
  unfold extractFinalFS
  intro hmem
  have hpred := (List.mem_filter.mp hmem).2
  rw [Bool.not_eq_eq_eq_not, Bool.not_true, decide_eq_false_iff_not] at hpred
  exact hpred (tmpPath_mem_tmpsOf o i)

/-- Demonstration oracle: input image present, all writes succeed, all
recognitions fail, fallback fails. -/
def demoOracle : Oracle where
  imagePath := some "img.png".data
  tmpPath := fun i => match i with
    | 0 => "t0.png".data
    | 1 => "t1.png".data
    | 2 => "t2.png".data
  writeOk := fun _ => true
  recog := fun _ => .error ()
  fallbackRecog := .error ()

/-- C8 witness: concrete invocation whose temporary files are all gone. -/
theorem temp_files_deleted_witness :
    demoOracle.tmpPath 0 ∉ (extractTextFromImage demoOracle ["img.png".data]).2 ∧
    demoOracle.tmpPath 1 ∉ (extractTextFromImage demoOracle ["img.png".data]).2 ∧
    demoOracle.tmpPath 2 ∉ (extractTextFromImage demoOracle ["img.png".data]).2 :=
  ⟨temp_files_deleted demoOracle ["img.png".data] "img.png".data 0 rfl (by decide),
   temp_files_deleted demoOracle ["img.png".data] "img.png".data 1 rfl (by decide),
   temp_files_deleted demoOracle ["img.png".data] "img.png".data 2 rfl (by decide)⟩

/-- Two confident recognised words used by the C2 scenario. -/
def ws2 : List OcrWord := [⟨"hello".data, 60⟩, ⟨"world".data, 60⟩]

/-- A rich recognition result: one line of two confident words. -/
def richData : OcrData := ⟨some [⟨some ws2⟩], some ws2, some "hello world".data⟩

/-- The fallback recognition result of the C2 scenario. -/
def fbData : OcrData := ⟨none, none, some "fallback text".data⟩

/-- Oracle for C2: the first recipe's recognition fails, the other two
succeed with a rich result, and the unprocessed-image fallback succeeds
with different text. -/
def cex2Oracle : Oracle where
  imagePath := some "img.png".data
  tmpPath := fun i => match i with
    | 0 => "t0.png".data
    | 1 => "t1.png".data
    | 2 => "t2.png".data
  writeOk := fun _ => true
  recog := fun i => if i = 0 then .error () else .ok richData
  fallbackRecog := .ok fbData

theorem buildCleanText_richData : buildCleanText richData = "hello world".data := by
  have hratio : ¬(((goodWordsOf ws2).length : ℚ) / (ws2.length : ℚ) < 2 / 5) := by
    rw [show (goodWordsOf ws2).length = 2 from rfl, show ws2.length = 2 from rfl]
    norm_num
  obtain ⟨h1, -⟩ := buildCleanText_single_line ws2 (some ws2)
    (some "hello world".data) (by decide) (by decide) hratio
  rw [show richData = ⟨some [⟨some ws2⟩], some ws2, some "hello world".data⟩ from rfl, h1]
  decide

/-- C2 counterexample: when one recipe's recognition fails while the other
two succeed with a perfectly good transcript, the surviving results are NOT
scored and used — `Promise.all` rejects, the whole fan-out is abandoned,
and the result comes from the unprocessed-image fallback pass instead. -/
theorem fanout_failure_discards_survivors :
    (extractTextFromImage cex2Oracle ["img.png".data]).1.ocr_text_raw =
      some "fallback text".data ∧
    buildCleanText richData = "hello world".data ∧
    some "fallback text".data ≠ some (buildCleanText richData) := by
  refine ⟨by decide, buildCleanText_richData, ?_⟩
  rw [buildCleanText_richData]
  decide

theorem extractTry_error_of_failure (o : Oracle)
    (hfail : (∃ i, o.writeOk i = false) ∨ (∃ i, o.recog i = .error ())) :
    extractTry o = .error () := by
  unfold extractTry
  rcases hfail with ⟨i, hi⟩ | ⟨i, hi⟩
  · have hw3 : o.writeOk 0 = false ∨ o.writeOk 1 = false ∨ o.writeOk 2 = false := by
      fin_cases i
      · exact Or.inl hi
      · exact Or.inr (Or.inl hi)
      · exact Or.inr (Or.inr hi)
    have hw : (o.writeOk 0 && o.writeOk 1 && o.writeOk 2) = false := by
      rcases hw3 with h | h | h <;> simp [h]
    rw [if_neg (by simp [hw])]
  · have hi3 : o.recog 0 = .error () ∨ o.recog 1 = .error () ∨ o.recog 2 = .error () := by
      fin_cases i
      · exact Or.inl hi
      · exact Or.inr (Or.inl hi)
      · exact Or.inr (Or.inr hi)
    by_cases hw : (o.writeOk 0 && o.writeOk 1 && o.writeOk 2) = true
    · rw [if_pos hw]
      cases h0 : o.recog 0 with
      | error e =>
        cases h1 : o.recog 1 with
        | error e1 =>
          cases h2 : o.recog 2 with
          | error e2 => rfl
          | ok d2 => rfl
        | ok d1 =>
          cases h2 : o.recog 2 with
          | error e2 => rfl
          | ok d2 => rfl
      | ok d0 =>
        cases h1 : o.recog 1 with
        | error e1 =>
          cases h2 : o.recog 2 with
          | error e2 => rfl
          | ok d2 => rfl
        | ok d1 =>
          cases h2 : o.recog 2 with
          | error e2 => rfl
          | ok d2 =>
            exfalso
            rcases hi3 with hx | hx | hx
            · rw [h0] at hx
              exact Except.noConfusion hx
            · rw [h1] at hx
              exact Except.noConfusion hx
            · rw [h2] at hx
              exact Except.noConfusion hx
    · rw [if_neg hw]

/-- C2 (amended): as soon as ANY recipe's preprocessing write or
recognition fails, the whole fan-out is abandoned: the try block rejects
and the result is exactly the catch block's single fallback pass on the
unprocessed image, regardless of the surviving recipes' results. -/
theorem fanout_aborts_on_any_failure (o : Oracle) (fs : FS) (p : Str)
    (hip : o.imagePath = some p) (hex : p ∈ fs)
    (hfail : (∃ i, o.writeOk i = false) ∨ (∃ i, o.recog i = .error ())) :
    (extractTextFromImage o fs).1 = extractCatch o := by
  rw [extract_fst hip hex]
  unfold extractResultOf
  rw [extractTry_error_of_failure o hfail]

/-- C2 amended-claim witness: the concrete one-failure oracle falls back. -/
theorem fanout_aborts_on_any_failure_witness :
    (extractTextFromImage cex2Oracle ["img.png".data]).1 = extractCatch cex2Oracle :=
  fanout_aborts_on_any_failure cex2Oracle ["img.png".data] "img.png".data rfl
    (by decide) (Or.inr ⟨0, rfl⟩)

theorem shortCond_iff (l : Str) :
    ((l.isEmpty || decide ((trimStr l).length < 2)) = true) ↔ (trimStr l).length < 2 := by
  constructor
  · intro h
    have h2 : l.isEmpty = true ∨ (trimStr l).length < 2 := by simpa using h
    rcases h2 with h1 | h1
    · rw [List.isEmpty_iff.mp h1]
      simp [trimStr, dropLeadWs]
    · exact h1
  · intro h
    simp [h]

theorem extractTry_ok_all (o : Oracle) (d0 d1 d2 : OcrData)
    (hw : (o.writeOk 0 && o.writeOk 1 && o.writeOk 2) = true)
    (h0 : o.recog 0 = .ok d0) (h1 : o.recog 1 = .ok d1) (h2 : o.recog 2 = .ok d2) :
    extractTry o =
      (if (buildCleanText ((sortScored (scoredOf d0 d1 d2)).headI.data)).isEmpty ||
          decide ((trimStr (buildCleanText
            ((sortScored (scoredOf d0 d1 d2)).headI.data))).length < 2)
        then .ok emptyResult
        else .ok (mkResult (buildCleanText ((sortScored (scoredOf d0 d1 d2)).headI.data))
          (parseOcrText (buildCleanText ((sortScored (scoredOf d0 d1 d2)).headI.data))))) := by
  unfold extractTry
  rw [if_pos hw, h0, h1, h2]

theorem mkResult_ne_empty (raw : Str) (p : ParsedFields) :
    mkResult raw p ≠ emptyResult := by
  intro h
  have := congrArg ExtractResult.ocr_text_raw h
  simp [mkResult, emptyResult] at this

theorem extractCatch_empty_iff (o : Oracle) :
    extractCatch o = emptyResult ↔
      (o.fallbackRecog = .error () ∨ ∃ d, o.fallbackRecog = .ok d ∧
        (d.text = none ∨ ∃ t, d.text = some t ∧ trimStr t = [])) := by
  unfold extractCatch
  cases hf : o.fallbackRecog with
  | error e =>
    cases e
    exact iff_of_true rfl (Or.inl rfl)
  | ok d =>
    show (match d.text with
      | none => emptyResult
      | some t =>
        let rawText := trimStr t
        if rawText.isEmpty then emptyResult
        else mkResult rawText (parseOcrText rawText)) = emptyResult ↔ _
    cases ht : d.text with
    | none =>
      exact iff_of_true rfl (Or.inr ⟨d, rfl, Or.inl ht⟩)
    | some t =>
      show (if (trimStr t).isEmpty = true then emptyResult
        else mkResult (trimStr t) (parseOcrText (trimStr t))) = emptyResult ↔ _
      by_cases hz : trimStr t = []
      · rw [if_pos (by rw [hz]; rfl)]
        exact iff_of_true rfl (Or.inr ⟨d, rfl, Or.inr ⟨t, ht, hz⟩⟩)
      · have hempty : (trimStr t).isEmpty = false := by
          cases hv : (trimStr t).isEmpty
          · rfl
          · exact absurd (List.isEmpty_iff.mp hv) hz
        rw [hempty, if_neg Bool.false_ne_true]
        apply iff_of_false (mkResult_ne_empty _ _)
        rintro (h | ⟨d2, hd2, htxt⟩)
        · exact Except.noConfusion h
        · have hdd : d = d2 := Except.ok.inj hd2
          rcases htxt with htn | ⟨t2, ht2, hz2⟩
          · rw [← hdd, ht] at htn
            exact Option.noConfusion htn
          · rw [← hdd, ht] at ht2
            rw [Option.some.inj ht2] at hz
            exact hz hz2

/-- C3 (amended): `extractTextFromImage` is a total function of the
outcome of its external calls (it never propagates an exception), and it
returns the all-null empty result exactly when: the input path is missing
or does not exist; or the whole fan-out succeeds but the BEST-SCORING
strategy's cleaned transcript has trimmed length < 2 (the original claim's
"no strategy yields a transcript of length ≥ 2" is wrong — only the
winner is cleaned, see the counterexample); or some write or recognition
fails and the fallback pass fails or yields no text. -/
theorem extract_empty_iff (o : Oracle) (fs : FS) :
    (extractTextFromImage o fs).1 = emptyResult ↔
      (o.imagePath = none ∨ ∃ p, o.imagePath = some p ∧ p ∉ fs) ∨
      (∃ d0 d1 d2, o.recog 0 = .ok d0 ∧ o.recog 1 = .ok d1 ∧ o.recog 2 = .ok d2 ∧
        (∀ i, o.writeOk i = true) ∧
        (trimStr (buildCleanText ((sortScored (scoredOf d0 d1 d2)).headI.data))).length < 2) ∨
      (((∃ i, o.writeOk i = false) ∨ (∃ i, o.recog i = .error ())) ∧
        (o.fallbackRecog = .error () ∨ ∃ d, o.fallbackRecog = .ok d ∧
          (d.text = none ∨ ∃ t, d.text = some t ∧ trimStr t = []))) := by
  cases hip : o.imagePath with
  | none =>
    have hres : (extractTextFromImage o fs).1 = emptyResult := by
      unfold extractTextFromImage
      rw [hip]
    exact iff_of_true hres (Or.inl (Or.inl rfl))
  | some p =>
    by_cases hex : p ∈ fs
    · have hA : ¬((some p : Option Str) = none ∨
          ∃ q, (some p : Option Str) = some q ∧ q ∉ fs) := by
        rintro (h | ⟨q, hq, hnq⟩)
        · exact Option.noConfusion h
        · rw [← Option.some.inj hq] at hnq
          exact hnq hex
      rw [extract_fst hip hex]
      by_cases hfail : (∃ i, o.writeOk i = false) ∨ (∃ i, o.recog i = .error ())
      · have hres : extractResultOf o = extractCatch o := by
          unfold extractResultOf
          rw [extractTry_error_of_failure o hfail]
        rw [hres, extractCatch_empty_iff]
        constructor
        · intro hcond
          exact Or.inr (Or.inr ⟨hfail, hcond⟩)
        · rintro (h | ⟨dd0, dd1, dd2, hh0, hh1, hh2, hwAll, -⟩ | ⟨-, hcond⟩)
          · exact absurd h hA
          · exfalso
            rcases hfail with ⟨i, hwi⟩ | ⟨i, hei⟩
            · rw [hwAll i] at hwi
              exact Bool.noConfusion hwi
            · have hi3 : o.recog 0 = .error () ∨ o.recog 1 = .error () ∨
                  o.recog 2 = .error () := by
                fin_cases i
                · exact Or.inl hei
                · exact Or.inr (Or.inl hei)
                · exact Or.inr (Or.inr hei)
              rcases hi3 with hx | hx | hx
              · rw [hh0] at hx
                exact Except.noConfusion hx
              · rw [hh1] at hx
                exact Except.noConfusion hx
              · rw [hh2] at hx
                exact Except.noConfusion hx
          · exact hcond
      · have hwAll : ∀ i, o.writeOk i = true := by
          intro i
          cases hv : o.writeOk i
          · exact absurd (Or.inl ⟨i, hv⟩) hfail
          · rfl
        have hrAll : ∀ i : Fin 3, ∃ d, o.recog i = .ok d := by
          intro i
          cases hv : o.recog i with
          | error e =>
            cases e
            exact absurd (Or.inr ⟨i, hv⟩) hfail
          | ok d => exact ⟨d, rfl⟩
        obtain ⟨d0, h0⟩ := hrAll 0
        obtain ⟨d1, h1⟩ := hrAll 1
        obtain ⟨d2, h2⟩ := hrAll 2
        have hw : (o.writeOk 0 && o.writeOk 1 && o.writeOk 2) = true := by
          rw [hwAll 0, hwAll 1, hwAll 2]
          rfl
        have htry := extractTry_ok_all o d0 d1 d2 hw h0 h1 h2
        have hres : extractResultOf o =
            (if (buildCleanText ((sortScored (scoredOf d0 d1 d2)).headI.data)).isEmpty ||
                decide ((trimStr (buildCleanText
                  ((sortScored (scoredOf d0 d1 d2)).headI.data))).length < 2)
              then emptyResult
              else mkResult (buildCleanText ((sortScored (scoredOf d0 d1 d2)).headI.data))
                (parseOcrText (buildCleanText
                  ((sortScored (scoredOf d0 d1 d2)).headI.data)))) := by
          unfold extractResultOf
          rw [htry]
          by_cases hc : ((buildCleanText ((sortScored (scoredOf d0 d1 d2)).headI.data)).isEmpty ||
              decide ((trimStr (buildCleanText
                ((sortScored (scoredOf d0 d1 d2)).headI.data))).length < 2)) = true
          · rw [if_pos hc, if_pos hc]
          · rw [if_neg hc, if_neg hc]
        rw [hres]
        by_cases hshort :
            (trimStr (buildCleanText ((sortScored (scoredOf d0 d1 d2)).headI.data))).length < 2
        · rw [if_pos ((shortCond_iff _).mpr hshort)]
          exact iff_of_true rfl (Or.inr (Or.inl ⟨d0, d1, d2, h0, h1, h2, hwAll, hshort⟩))
        · rw [if_neg (fun hc => hshort ((shortCond_iff _).mp hc))]
          apply iff_of_false (mkResult_ne_empty _ _)
          rintro (h | ⟨dd0, dd1, dd2, hh0, hh1, hh2, -, hshort2⟩ | ⟨hfail2, -⟩)
          · exact hA h
          · rw [h0] at hh0
            rw [h1] at hh1
            rw [h2] at hh2
            rw [← Except.ok.inj hh0, ← Except.ok.inj hh1, ← Except.ok.inj hh2] at hshort2
            exact hshort hshort2
          · exact hfail hfail2
    · have hres : (extractTextFromImage o fs).1 = emptyResult := by
        unfold extractTextFromImage
        rw [hip]
        show (if decide (p ∈ fs) = true then (extractResultOf o, extractFinalFS o fs)
          else (emptyResult, fs)).1 = emptyResult
        rw [if_neg (by simpa using hex)]
      exact iff_of_true hres (Or.inl (Or.inr ⟨p, rfl, hex⟩))

/-- Junk winner for C3: a high-confidence word list (score 99) but no line
structure and no text, so its cleaned transcript is empty. -/
def bestJunk : OcrData := ⟨none, some [⟨"x".data, 99⟩], none⟩

/-- Zero-scoring recognition result. -/
def junkZero : OcrData := ⟨none, none, none⟩

/-- Oracle for the C3 counterexample: everything succeeds; the
highest-scoring strategy has no usable transcript while a lower-scoring
one has a perfectly good 11-character transcript. -/
def cex3Oracle : Oracle where
  imagePath := some "img.png".data
  tmpPath := fun i => match i with
    | 0 => "t0.png".data
    | 1 => "t1.png".data
    | 2 => "t2.png".data
  writeOk := fun _ => true
  recog := fun i => match i with
    | 0 => .ok bestJunk
    | 1 => .ok richData
    | 2 => .ok junkZero
  fallbackRecog := .ok fbData

theorem scoreOf_bestJunk : scoreOf bestJunk = 99 := by
  unfold scoreOf
  rw [show (bestJunk.words.getD []).filter (fun w => decide (50 < w.confidence)) =
    [⟨"x".data, 99⟩] from by decide]
  norm_num

theorem scoreOf_richData : scoreOf richData = 60 := by
  unfold scoreOf
  rw [show (richData.words.getD []).filter (fun w => decide (50 < w.confidence)) =
    [⟨"hello".data, 60⟩, ⟨"world".data, 60⟩] from by decide]
  norm_num

theorem scoreOf_junkZero : scoreOf junkZero = 0 := rfl

theorem cex3_sorted_head :
    (sortScored (scoredOf bestJunk richData junkZero)).headI =
      ⟨bestJunk, scoreOf bestJunk, strategyName 0⟩ := by
  have h1 : sortScored [⟨junkZero, scoreOf junkZero, strategyName 2⟩] =
      [⟨junkZero, scoreOf junkZero, strategyName 2⟩] := rfl
  have h2 : sortScored [⟨richData, scoreOf richData, strategyName 1⟩,
      ⟨junkZero, scoreOf junkZero, strategyName 2⟩] =
      [⟨richData, scoreOf richData, strategyName 1⟩,
       ⟨junkZero, scoreOf junkZero, strategyName 2⟩] := by
    rw [sortScored_cons, h1, List.orderedInsert_of_le]
    rw [scoreOf_richData, scoreOf_junkZero]
    norm_num
  show (sortScored ((⟨bestJunk, scoreOf bestJunk, strategyName 0⟩ : ScoredResult) ::
    [⟨richData, scoreOf richData, strategyName 1⟩,
     ⟨junkZero, scoreOf junkZero, strategyName 2⟩])).headI = _
  rw [sortScored_cons, h2, List.orderedInsert_of_le]
  · rfl
  · rw [scoreOf_bestJunk, scoreOf_richData]
    norm_num

/-- C3 counterexample: the pipeline returns the empty result although the
input exists, no strategy failed, the fallback is reachable, and one
strategy (the second) yields a cleaned transcript of length ≥ 2 — the
code only cleans the best-scoring strategy's output, so "no strategy
yields a transcript of length ≥ 2" is not equivalent to returning empty. -/
theorem extract_empty_despite_good_survivor :
    (extractTextFromImage cex3Oracle ["img.png".data]).1 = emptyResult ∧
    cex3Oracle.imagePath = some "img.png".data ∧
    "img.png".data ∈ ["img.png".data] ∧
    cex3Oracle.recog 1 = .ok richData ∧
    2 ≤ (trimStr (buildCleanText richData)).length ∧
    (∀ i, cex3Oracle.writeOk i = true) ∧
    cex3Oracle.recog 0 = .ok bestJunk ∧
    cex3Oracle.recog 2 = .ok junkZero ∧
    cex3Oracle.fallbackRecog = .ok fbData := by
  refine ⟨?_, rfl, by decide, rfl, ?_, by decide, rfl, rfl, rfl⟩
  · rw [extract_fst rfl (by decide)]
    unfold extractResultOf
    rw [extractTry_ok_all cex3Oracle bestJunk richData junkZero rfl rfl rfl rfl]
    rw [cex3_sorted_head]
    rw [show buildCleanText (⟨bestJunk, scoreOf bestJunk, strategyName 0⟩ :
      ScoredResult).data = [] from rfl]
    rfl
  · rw [buildCleanText_richData]
    decide

end GeoSnap
